import Mathlib

/-!
# gocryptfs — on-disk crypto format and block-oriented I/O engine

A shallow embedding of the gocryptfs block codec, content I/O engine,
filename transform and the `initDir` command, together with proofs of
the specification's testable properties.

Byte strings are `List Nat`, with every byte `< 256` where it matters.

The repository sources at hand contain the `initDir` command and the
integration tests of the I/O engine; the engine itself (content
encryption, read/write/truncate) and the filename transform are
modelled from the specification, as marked on each definition.
-/

set_option maxRecDepth 10000

namespace Gocryptfs

abbrev Bytes := List Nat

/-! ## MD5 (RFC 1321)

The integration tests state their expectations as MD5 digests of the
plaintext view of a file; we implement MD5 over an index function
(message length plus byte-at-index) so that digests of concrete
contents can be checked by kernel evaluation without deep list
recursion. -/

namespace MD5

def mask32 : Nat := 4294967296

def rotl32 (x s : Nat) : Nat :=
  (x % 2 ^ (32 - s)) * 2 ^ s + x / 2 ^ (32 - s)

def kTable : List Nat :=
  [0xd76aa478, 0xe8c7b756, 0x242070db, 0xc1bdceee,
   0xf57c0faf, 0x4787c62a, 0xa8304613, 0xfd469501,
   0x698098d8, 0x8b44f7af, 0xffff5bb1, 0x895cd7be,
   0x6b901122, 0xfd987193, 0xa679438e, 0x49b40821,
   0xf61e2562, 0xc040b340, 0x265e5a51, 0xe9b6c7aa,
   0xd62f105d, 0x02441453, 0xd8a1e681, 0xe7d3fbc8,
   0x21e1cde6, 0xc33707d6, 0xf4d50d87, 0x455a14ed,
   0xa9e3e905, 0xfcefa3f8, 0x676f02d9, 0x8d2a4c8a,
   0xfffa3942, 0x8771f681, 0x6d9d6122, 0xfde5380c,
   0xa4beea44, 0x4bdecfa9, 0xf6bb4b60, 0xbebfbc70,
   0x289b7ec6, 0xeaa127fa, 0xd4ef3085, 0x04881d05,
   0xd9d4d039, 0xe6db99e5, 0x1fa27cf8, 0xc4ac5665,
   0xf4292244, 0x432aff97, 0xab9423a7, 0xfc93a039,
   0x655b59c3, 0x8f0ccc92, 0xffeff47d, 0x85845dd1,
   0x6fa87e4f, 0xfe2ce6e0, 0xa3014314, 0x4e0811a1,
   0xf7537e82, 0xbd3af235, 0x2ad7d2bb, 0xeb86d391]

def sTable : List Nat :=
  [7, 12, 17, 22, 7, 12, 17, 22, 7, 12, 17, 22, 7, 12, 17, 22,
   5, 9, 14, 20, 5, 9, 14, 20, 5, 9, 14, 20, 5, 9, 14, 20,
   4, 11, 16, 23, 4, 11, 16, 23, 4, 11, 16, 23, 4, 11, 16, 23,
   6, 10, 15, 21, 6, 10, 15, 21, 6, 10, 15, 21, 6, 10, 15, 21]

/-- Message-word index used at step `t`. -/
def mIdx (t : Nat) : Nat :=
  if t < 16 then t
  else if t < 32 then (5 * t + 1) % 16
  else if t < 48 then (3 * t + 5) % 16
  else (7 * t) % 16

def fF (b c d : Nat) : Nat := (b &&& c) ||| ((b ^^^ 0xffffffff) &&& d)

def fG (b c d : Nat) : Nat := (d &&& b) ||| ((d ^^^ 0xffffffff) &&& c)

def fH (b c d : Nat) : Nat := b ^^^ c ^^^ d

def fI (b c d : Nat) : Nat := c ^^^ (b ||| (d ^^^ 0xffffffff))

/-- Little-endian encoding, 8 bytes. -/
def le8 (n : Nat) : List Nat :=
  [n % 256, n / 2 ^ 8 % 256, n / 2 ^ 16 % 256, n / 2 ^ 24 % 256,
   n / 2 ^ 32 % 256, n / 2 ^ 40 % 256, n / 2 ^ 48 % 256, n / 2 ^ 56 % 256]

/-- Little-endian encoding, 4 bytes. -/
def le4 (n : Nat) : List Nat :=
  [n % 256, n / 2 ^ 8 % 256, n / 2 ^ 16 % 256, n / 2 ^ 24 % 256]

/-- Total length of the RFC 1321 padded message (a multiple of 64). -/
def padLen (len : Nat) : Nat := len + 1 + (119 - len % 64) % 64 + 8

/-- Byte `i` of the padded message: the message itself, then `0x80`,
zeros up to 56 mod 64, then the little-endian 64-bit bit count. -/
def padByte (len : Nat) (f : Nat → Nat) (i : Nat) : Nat :=
  if i < len then f i
  else if i = len then 128
  else if i < padLen len - 8 then 0
  else (le8 (8 * len % 2 ^ 64)).getD (i - (padLen len - 8)) 0

/-- 32-bit little-endian word of the padded message starting at `base`. -/
def word32 (g : Nat → Nat) (base : Nat) : Nat :=
  g base + 256 * g (base + 1) + 65536 * g (base + 2) + 16777216 * g (base + 3)

/-- One of the 64 MD5 steps, acting on the state `(a, b, c, d)`;
`cb` is the byte offset of the current chunk. -/
def md5Step (g : Nat → Nat) (cb : Nat) (st : Nat × Nat × Nat × Nat) (t : Nat) :
    Nat × Nat × Nat × Nat :=
  match st with
  | (a, b, c, d) =>
    let f :=
      if t < 16 then fF b c d
      else if t < 32 then fG b c d
      else if t < 48 then fH b c d
      else fI b c d
    let b2 := (b + rotl32 ((a + f + kTable.getD t 0 + word32 g (cb + 4 * mIdx t)) % mask32)
        (sTable.getD t 0)) % mask32
    (d, b2, b, c)

/-- Process the 64-byte chunk with index `c`. -/
def md5Chunk (g : Nat → Nat) (st : Nat × Nat × Nat × Nat) (c : Nat) :
    Nat × Nat × Nat × Nat :=
  match st, (List.range 64).foldl (md5Step g (64 * c)) st with
  | (a0, b0, c0, d0), (a, b, c, d) =>
    ((a0 + a) % mask32, (b0 + b) % mask32, (c0 + c) % mask32, (d0 + d) % mask32)

/-- Fold over the chunks, starting at chunk `cIdx` with `n` chunks left. -/
def md5Loop (g : Nat → Nat) : Nat → Nat → Nat → Nat → Nat → Nat → Nat × Nat × Nat × Nat
  | _, 0, a, b, c, d => (a, b, c, d)
  | cIdx, n + 1, a, b, c, d =>
    match md5Chunk g (a, b, c, d) cIdx with
    | (a2, b2, c2, d2) => md5Loop g (cIdx + 1) n a2 b2 c2 d2

def hexDigit (n : Nat) : Char :=
  if n < 10 then Char.ofNat (48 + n) else Char.ofNat (87 + n)

def bytesToHex (l : List Nat) : String :=
  String.mk (l.foldr (fun b acc => hexDigit (b / 16) :: hexDigit (b % 16) :: acc) [])

end MD5

/-- Lowercase-hex MD5 digest of the message of length `len` whose byte
at index `i < len` is `f i`. -/
def md5F (len : Nat) (f : Nat → Nat) : String :=
  match MD5.md5Loop (MD5.padByte len f) 0 (MD5.padLen len / 64)
      0x67452301 0xefcdab89 0x98badcfe 0x10325476 with
  | (a, b, c, d) => MD5.bytesToHex (MD5.le4 a ++ MD5.le4 b ++ MD5.le4 c ++ MD5.le4 d)

/-- Hex MD5 digest of a byte string, as the tests print it. -/
def md5hex (m : Bytes) : String := md5F m.length (fun i => m.getD i 0)

/-! ## Block codec (spec §4.1)

Constants from the spec: `PBS = 4096`, 96-bit nonces, 128-bit tags,
`O = 28`, `CBS = 4124`. -/

def PBS : Nat := 4096

def nonceLen : Nat := 12

def tagLen : Nat := 16

def blockOverhead : Nat := nonceLen + tagLen

def CBS : Nat := PBS + blockOverhead

def headerLen : Nat := 18

/-- Associated data of a data block: `block_index (8 bytes, big-endian)
|| FID (16 bytes)` (spec §4.1). -/
def be64 (n : Nat) : Bytes :=
  [n / 2 ^ 56 % 256, n / 2 ^ 48 % 256, n / 2 ^ 40 % 256, n / 2 ^ 32 % 256,
   n / 2 ^ 24 % 256, n / 2 ^ 16 % 256, n / 2 ^ 8 % 256, n % 256]

def adBytes (fid : Bytes) (i : Nat) : Bytes := be64 i ++ fid

/-- Modelled from the spec: the 128-bit AEAD authenticator tag
(AES-256-GCM in the spec; the AEAD itself is not in the sources at
hand).  Idealised as a 16-byte checksum binding master key, associated
data, nonce and ciphertext, which realises the spec's contract that
the tag verifies exactly these inputs; the nonzero trailing bytes
realise the spec's remark that genuine ciphertext can never be
all-zero. -/
def tag16 (key ad nonce ct : Bytes) : Bytes :=
  (key.sum + ad.sum + nonce.sum + ct.sum) % 256 :: List.replicate (tagLen - 1) 1

/-- Modelled from the spec: `encrypt` emits `NONCE || CT || TAG`
(spec §4.1); the keystream is idealised as the identity, preserving
the spec's `CT length equals plaintext length in that block`. -/
def encBlock (key fid : Bytes) (i : Nat) (nonce p : Bytes) : Bytes :=
  nonce ++ p ++ tag16 key (adBytes fid i) nonce p

/-- An all-zero ciphertext block of exactly `CBS` bytes: the explicit
hole marker of spec §4.1. -/
def holeMarker : Bytes := List.replicate CBS 0

/-- Modelled from the spec: `decrypt` parses `NONCE || CT || TAG` and
verifies; fails if the tag does not verify or the input is shorter
than `O`.  The all-zero block of exactly `CBS` bytes decrypts to `PBS`
zero bytes without invoking the AEAD (spec §4.1). -/
def decBlock (key fid : Bytes) (i : Nat) (c : Bytes) : Option Bytes :=
  if c = holeMarker then some (List.replicate PBS 0)
  else if c.length < blockOverhead then none
  else if c.drop (c.length - tagLen)
      = tag16 key (adBytes fid i) (c.take nonceLen)
          ((c.drop nonceLen).take (c.length - nonceLen - tagLen)) then
    some ((c.drop nonceLen).take (c.length - nonceLen - tagLen))
  else none

/-! ## Content I/O engine (spec §4.2)

Modelled from the spec: the engine code is not among the sources at
hand (only its integration tests are), so the state and operations
follow spec §3/§4.2 literally.  A ciphertext file is either length 0
(`none`) or a header (version constant plus the 16-byte `FID`,
represented by the `fid` field) followed by the list of ciphertext
blocks; logical block `i` is `blocks[i]`. -/

structure EncFile where
  fid : Bytes
  blocks : List Bytes
  deriving DecidableEq

abbrev CtState := Option EncFile

/-- Errors surfaced by the engine (spec §7): backing-store errors are
out of scope of the model, authentication failures are not. -/
inductive Err where
  | AuthenticationFailure
  deriving DecidableEq

/-- Fresh-randomness source of a mount: the per-file ID sampled when a
header is first written, and the fresh nonce used for the `j`-th
block (re)encryption. -/
structure Rng where
  fid : Bytes
  nonce : Nat → Bytes

/-- Spec §3: the logical size of a file is
`(ciphertext_size − H) − number_of_blocks · O` (0 for an empty file). -/
def ctSize (st : CtState) : Nat :=
  match st with
  | none => 0
  | some f => (f.blocks.map List.length).sum - f.blocks.length * blockOverhead

/-- Decrypt a list of consecutive blocks, the first having index `i`;
fails if any block fails. -/
def decBlocksL (key fid : Bytes) : Nat → List Bytes → Option (List Bytes)
  | _, [] => some []
  | i, c :: cs => do
    let p ← decBlock key fid i c
    let ps ← decBlocksL key fid (i + 1) cs
    pure (p :: ps)

/-- The full plaintext content of a file (`none` on authentication
failure anywhere). -/
def fileContent (key : Bytes) (st : CtState) : Option Bytes :=
  match st with
  | none => some []
  | some f => (decBlocksL key f.fid 0 f.blocks).map List.flatten

/-- `read(off, len)` (spec §4.2): decrypts exactly the covered blocks,
fails with `AuthenticationFailure` if any covered block fails, returns
up to `len` bytes, shorter only at end-of-file. -/
def readOp (key : Bytes) (st : CtState) (off len : Nat) : Except Err Bytes :=
  match st with
  | none => .ok []
  | some f =>
    let endo := min (off + len) (ctSize st)
    if endo ≤ off then .ok []
    else
      let i0 := off / PBS
      let i1 := (endo - 1) / PBS
      match decBlocksL key f.fid i0 ((f.blocks.drop i0).take (i1 - i0 + 1)) with
      | none => .error .AuthenticationFailure
      | some ps => .ok ((ps.flatten.drop (off - i0 * PBS)).take (endo - off))

/-- `full` hole-marker blocks starting at index `i`, then (if
`lastLen ≠ 0`) one explicitly encrypted all-zero partial block:
the blocks newly introduced by a grow-truncate (spec §4.2). -/
def zeroBlocks (key fid : Bytes) (ns : Nat → Bytes) (i full lastLen : Nat) : List Bytes :=
  List.replicate full holeMarker ++
    (if lastLen = 0 then []
     else [encBlock key fid (i + full) (ns (i + full)) (List.replicate lastLen 0)])

/-- `truncate(n)` (spec §4.2): grow stores new full blocks as hole
markers and explicitly writes a final partial block of encrypted
zeros, extending a partial last block by read-modify-write; shrink
discards whole trailing blocks and read-modify-writes the new final
block; truncate to 0 discards the header. -/
def truncOp (key : Bytes) (rng : Rng) (st : CtState) (n : Nat) : Except Err CtState :=
  let sz := ctSize st
  if n = sz then .ok st
  else if n = 0 then .ok none
  else if n < sz then
    match st with
    | none => .ok none
    | some f =>
      let q := (n + PBS - 1) / PBS
      if n % PBS = 0 then .ok (some ⟨f.fid, f.blocks.take q⟩)
      else
        match (f.blocks.drop (q - 1)).head? with
        | none => .error .AuthenticationFailure
        | some c =>
          match decBlock key f.fid (q - 1) c with
          | none => .error .AuthenticationFailure
          | some p =>
            .ok (some ⟨f.fid, f.blocks.take (q - 1) ++
              [encBlock key f.fid (q - 1) (rng.nonce (q - 1)) (p.take (n % PBS))]⟩)
  else
    match st with
    | none => .ok (some ⟨rng.fid, zeroBlocks key rng.fid rng.nonce 0 (n / PBS) (n % PBS)⟩)
    | some f =>
      if f.blocks.length = 0 then
        .ok (some ⟨f.fid, zeroBlocks key f.fid rng.nonce 0 (n / PBS) (n % PBS)⟩)
      else
        let k := f.blocks.length
        let ll := sz - (k - 1) * PBS
        let tgt := min (n - (k - 1) * PBS) PBS
        let tail := if n ≤ k * PBS then []
          else zeroBlocks key f.fid rng.nonce k (n / PBS - k) (n % PBS)
        if ll = tgt then .ok (some ⟨f.fid, f.blocks ++ tail⟩)
        else
          match (f.blocks.drop (k - 1)).head? with
          | none => .error .AuthenticationFailure
          | some c =>
            match decBlock key f.fid (k - 1) c with
            | none => .error .AuthenticationFailure
            | some p =>
              .ok (some ⟨f.fid, f.blocks.take (k - 1) ++
                [encBlock key f.fid (k - 1) (rng.nonce (k - 1))
                  (p ++ List.replicate (tgt - ll) 0)] ++ tail⟩)

/-- Split the data of a write into block-aligned units (spec §4.2):
the first unit fills the first affected block from its intra-block
offset (capacity `cap`), later units have capacity `PBS`. -/
def chunkData : Nat → Nat → Bytes → List Bytes
  | 0, _, _ => []
  | _, _, [] => []
  | fuel + 1, cap, d => d.take cap :: chunkData fuel PBS (d.drop cap)

/-- Write the block-aligned units over the existing blocks starting at
index `i`: a fully covering unit is written without a prior read, an
edge unit read-modify-writes the old block (spec §4.2), and units past
the last block are appended.  `r` is the intra-block offset of the
first unit. -/
def writeChunks (key fid : Bytes) (ns : Nat → Bytes) (r : Nat) :
    Nat → List Bytes → List Bytes → Option (List Bytes)
  | _, olds, [] => some olds
  | i, [], c :: cs =>
      (writeChunks key fid ns 0 (i + 1) [] cs).map
        (fun nb => encBlock key fid i (ns i) c :: nb)
  | i, o :: olds, c :: cs =>
      if r = 0 ∧ c.length = PBS then
        (writeChunks key fid ns 0 (i + 1) olds cs).map
          (fun nb => encBlock key fid i (ns i) c :: nb)
      else
        match decBlock key fid i o with
        | none => none
        | some p =>
          (writeChunks key fid ns 0 (i + 1) olds cs).map
            (fun nb => encBlock key fid i (ns i)
              (p.take r ++ c ++ p.drop (r + c.length)) :: nb)

/-- `write(off, data)` (spec §4.2): writing nothing is a no-op;
otherwise the file is first grown to `off` if needed (missing blocks
become zeros), the data is split into block-aligned units, and the
units are merged over the affected blocks. -/
def writeOp (key : Bytes) (rng : Rng) (st : CtState) (off : Nat) (d : Bytes) :
    Except Err CtState :=
  if d = [] then .ok st
  else
    match (if ctSize st < off then truncOp key rng st off else .ok st) with
    | .error e => .error e
    | .ok st1 =>
      let f := match st1 with
               | none => EncFile.mk rng.fid []
               | some f0 => f0
      let i0 := off / PBS
      let r := off % PBS
      match writeChunks key f.fid rng.nonce r i0 (f.blocks.drop i0)
          (chunkData d.length (PBS - r) d) with
      | none => .error .AuthenticationFailure
      | some nb => .ok (some ⟨f.fid, f.blocks.take i0 ++ nb⟩)

/-! ## Plaintext-level specification of the engine

The engine operations are proved to refine these list-level
operations on the logical file content. -/

/-- Zero-extend a content to length at least `n`. -/
def zpad (P : Bytes) (n : Nat) : Bytes := P ++ List.replicate (n - P.length) 0

/-- The content after `truncate(n)`. -/
def plainTrunc (P : Bytes) (n : Nat) : Bytes := (zpad P n).take n

/-- The content after `write(off, d)` with `d ≠ []`. -/
def plainWrite (P : Bytes) (off : Nat) (d : Bytes) : Bytes :=
  (zpad P off).take off ++ d ++ P.drop (off + d.length)

/-! ## Well-formedness and the block abstraction relation -/

def wfBytes (l : Bytes) : Prop := ∀ b ∈ l, b < 256

instance (l : Bytes) : Decidable (wfBytes l) := by
  unfold wfBytes; infer_instance

def goodNonce (nonce : Bytes) : Prop := nonce.length = nonceLen ∧ wfBytes nonce

instance (nonce : Bytes) : Decidable (goodNonce nonce) := by
  unfold goodNonce; infer_instance

/-- The randomness source provides a 16-byte `FID` and valid fresh
nonces. -/
def goodRng (rng : Rng) : Prop :=
  rng.fid.length = 16 ∧ wfBytes rng.fid ∧ ∀ i, goodNonce (rng.nonce i)

theorem tag16_length (key ad nonce ct : Bytes) : (tag16 key ad nonce ct).length = tagLen := by
  simp [tag16, tagLen]

theorem encBlock_length (key fid : Bytes) (i : Nat) (nonce p : Bytes)
    (hn : nonce.length = nonceLen) :
    (encBlock key fid i nonce p).length = p.length + blockOverhead := by
  simp [encBlock, tag16_length, hn, blockOverhead]
  omega

theorem holeMarker_length : holeMarker.length = CBS := by simp [holeMarker]

theorem getD_holeMarker (n : Nat) (d : Nat) (h : n < CBS) : holeMarker.getD n d = 0 := by
  simp [holeMarker, List.getD]
  rw [List.getElem?_replicate]
  simp [h]

/-- The trailing tag byte at offset `t + 1` is the constant 1. -/
theorem encBlock_getD_tagpad (key fid : Bytes) (i : Nat) (nonce p : Bytes) (t : Nat)
    (ht : t + 1 < tagLen) :
    (encBlock key fid i nonce p).getD (nonce.length + p.length + (t + 1)) 0 = 1 := by
  have hA : nonce.length + p.length + (t + 1) = (nonce ++ p).length + (t + 1) := by simp
  rw [hA]
  show ((nonce ++ p) ++ tag16 key (adBytes fid i) nonce p).getD ((nonce ++ p).length + (t + 1)) 0 = 1
  rw [List.getD_append_right _ _ _ _ (by omega), Nat.add_sub_cancel_left]
  simp only [tag16, List.getD_cons_succ]
  simp [List.getD]
  rw [List.getElem?_replicate]
  have ht2 : t < tagLen - 1 := by omega
  simp [ht2]

theorem encBlock_ne_holeMarker (key fid : Bytes) (i : Nat) (nonce p : Bytes)
    (hn : nonce.length = nonceLen) : encBlock key fid i nonce p ≠ holeMarker := by
  intro hEq
  by_cases hp : p.length = PBS
  · have h1 : (encBlock key fid i nonce p).getD (nonce.length + p.length + 1) 0 = 1 :=
      encBlock_getD_tagpad key fid i nonce p 0 (by simp [tagLen])
    rw [hEq] at h1
    rw [getD_holeMarker _ _ (by
      simp only [hn, hp, CBS, blockOverhead, nonceLen, tagLen, PBS]
      omega)] at h1
    exact absurd h1 (by simp)
  · have := congrArg List.length hEq
    rw [encBlock_length key fid i nonce p hn, holeMarker_length] at this
    simp only [CBS] at this
    omega

theorem encBlock_take_nonce (key fid : Bytes) (i : Nat) (nonce p : Bytes)
    (hn : nonce.length = nonceLen) :
    (encBlock key fid i nonce p).take nonceLen = nonce := by
  show ((nonce ++ p) ++ tag16 key (adBytes fid i) nonce p).take nonceLen = nonce
  rw [List.take_append_of_le_length (by simp [hn]), List.take_append_of_le_length (by omega),
    List.take_of_length_le (by omega)]

theorem encBlock_drop_nonce (key fid : Bytes) (i : Nat) (nonce p : Bytes)
    (hn : nonce.length = nonceLen) :
    (encBlock key fid i nonce p).drop nonceLen = p ++ tag16 key (adBytes fid i) nonce p := by
  show ((nonce ++ p) ++ tag16 key (adBytes fid i) nonce p).drop nonceLen
      = p ++ tag16 key (adBytes fid i) nonce p
  rw [List.append_assoc, List.drop_left' hn]

/-- Round trip of the block codec on well-formed inputs. -/
theorem decBlock_encBlock (key fid : Bytes) (i : Nat) (nonce p : Bytes)
    (hn : nonce.length = nonceLen) :
    decBlock key fid i (encBlock key fid i nonce p) = some p := by
  have hclen : (encBlock key fid i nonce p).length = nonceLen + (p.length + tagLen) := by
    rw [encBlock_length key fid i nonce p hn]
    simp only [blockOverhead]
    omega
  have hct : (encBlock key fid i nonce p).length - nonceLen - tagLen = p.length := by
    rw [hclen]; omega
  have hctpiece : ((encBlock key fid i nonce p).drop nonceLen).take
      ((encBlock key fid i nonce p).length - nonceLen - tagLen) = p := by
    rw [hct, encBlock_drop_nonce key fid i nonce p hn, List.take_left' rfl]
  have htg : (encBlock key fid i nonce p).drop ((encBlock key fid i nonce p).length - tagLen)
      = tag16 key (adBytes fid i) nonce p := by
    have h2 : (encBlock key fid i nonce p).length - tagLen = (nonce ++ p).length := by
      rw [hclen]; simp [hn]; omega
    rw [h2]
    show ((nonce ++ p) ++ tag16 key (adBytes fid i) nonce p).drop ((nonce ++ p).length)
        = tag16 key (adBytes fid i) nonce p
    exact List.drop_left _ _
  unfold decBlock
  rw [if_neg (encBlock_ne_holeMarker key fid i nonce p hn)]
  rw [if_neg (by rw [hclen]; simp only [blockOverhead]; omega)]
  rw [htg, encBlock_take_nonce key fid i nonce p hn, hctpiece]
  simp

theorem decBlock_holeMarker (key fid : Bytes) (i : Nat) :
    decBlock key fid i holeMarker = some (List.replicate PBS 0) := by
  simp [decBlock]

/-- Relation between a stored ciphertext block at index `i` and its
plaintext: either the hole marker standing for a zero block, or a
well-formed authenticated block. -/
inductive BlockAbs (key fid : Bytes) (i : Nat) : Bytes → Bytes → Prop where
  | hole : BlockAbs key fid i holeMarker (List.replicate PBS 0)
  | enc (nonce p : Bytes) (hn : goodNonce nonce) (hw : wfBytes p) (hp : p.length ≤ PBS) :
      BlockAbs key fid i (encBlock key fid i nonce p) p

/-- Blockwise abstraction of a list of consecutive blocks starting at
index `i`. -/
inductive BlocksAbs (key fid : Bytes) : Nat → List Bytes → List Bytes → Prop where
  | nil (i : Nat) : BlocksAbs key fid i [] []
  | cons (i : Nat) (c p : Bytes) (cs ps : List Bytes) :
      BlockAbs key fid i c p → BlocksAbs key fid (i + 1) cs ps →
      BlocksAbs key fid i (c :: cs) (p :: ps)

theorem BlockAbs.decBlock_eq (h : BlockAbs key fid i c p) : decBlock key fid i c = some p := by
  cases h with
  | hole => exact decBlock_holeMarker key fid i
  | enc nonce p hn hw hp => exact decBlock_encBlock key fid i nonce p hn.1

theorem BlockAbs.plain_length_le (h : BlockAbs key fid i c p) : p.length ≤ PBS := by
  cases h with
  | hole => simp
  | enc nonce p hn hw hp => exact hp

theorem BlockAbs.plain_wf (h : BlockAbs key fid i c p) : wfBytes p := by
  cases h with
  | hole => intro b hb; rw [List.eq_of_mem_replicate hb]; omega
  | enc nonce p hn hw hp => exact hw

theorem BlockAbs.ct_length (h : BlockAbs key fid i c p) :
    c.length = p.length + blockOverhead := by
  cases h with
  | hole => simp [holeMarker_length, CBS]
  | enc nonce p hn hw hp => exact encBlock_length key fid i nonce p hn.1

theorem BlocksAbs.length_eq (h : BlocksAbs key fid i cs ps) : cs.length = ps.length := by
  induction h with
  | nil => rfl
  | cons i c p cs ps hc hcs ih => simp [ih]

theorem BlocksAbs.decBlocksL_eq (h : BlocksAbs key fid i cs ps) :
    decBlocksL key fid i cs = some ps := by
  induction h with
  | nil => rfl
  | cons i c p cs ps hc hcs ih =>
    simp [decBlocksL, hc.decBlock_eq, ih]

theorem BlocksAbs.append (h1 : BlocksAbs key fid i cs1 ps1)
    (h2 : BlocksAbs key fid (i + cs1.length) cs2 ps2) :
    BlocksAbs key fid i (cs1 ++ cs2) (ps1 ++ ps2) := by
  induction h1 with
  | nil => simpa using h2
  | cons i c p cs ps hc hcs ih =>
    simp only [List.cons_append]
    exact BlocksAbs.cons _ _ _ _ _ hc (ih (by simpa [Nat.add_assoc, Nat.add_comm 1] using h2))

theorem BlocksAbs.take_abs (h : BlocksAbs key fid i cs ps) (m : Nat) :
    BlocksAbs key fid i (cs.take m) (ps.take m) := by
  induction h generalizing m with
  | nil => simpa using BlocksAbs.nil _
  | cons i c p cs ps hc hcs ih =>
    cases m with
    | zero => simpa using BlocksAbs.nil _
    | succ m => exact BlocksAbs.cons _ _ _ _ _ hc (ih m)

theorem BlocksAbs.drop_abs (h : BlocksAbs key fid i cs ps) (m : Nat) :
    BlocksAbs key fid (i + m) (cs.drop m) (ps.drop m) := by
  induction h generalizing m with
  | nil => simpa using BlocksAbs.nil _
  | cons i c p cs ps hc hcs ih =>
    cases m with
    | zero => simpa using BlocksAbs.cons _ _ _ _ _ hc hcs
    | succ m =>
      simpa [Nat.add_assoc, Nat.add_comm 1] using ih m

/-- The replicated hole markers of a grow abstract to zero blocks. -/
theorem BlocksAbs.holes (key fid : Bytes) (i m : Nat) :
    BlocksAbs key fid i (List.replicate m holeMarker)
      (List.replicate m (List.replicate PBS 0)) := by
  induction m generalizing i with
  | zero => exact BlocksAbs.nil i
  | succ m ih =>
    simp only [List.replicate_succ]
    exact BlocksAbs.cons _ _ _ _ _ BlockAbs.hole (ih (i + 1))

/-! ## The block-length discipline of a file

All blocks of a file hold exactly `PBS` plaintext bytes except the
last, which holds between 1 and `PBS` (spec §3). -/

inductive Chunked : List Bytes → Prop where
  | nil : Chunked []
  | single (p : Bytes) : 1 ≤ p.length → p.length ≤ PBS → Chunked [p]
  | cons (p : Bytes) (ps : List Bytes) : p.length = PBS → ps ≠ [] → Chunked ps →
      Chunked (p :: ps)

def AllFull (ps : List Bytes) : Prop := ∀ p ∈ ps, p.length = PBS

theorem Chunked.le_PBS (h : Chunked ps) (hp : p ∈ ps) : p.length ≤ PBS := by
  induction h with
  | nil => cases hp
  | single q h1 h2 =>
    rw [List.mem_singleton] at hp
    exact hp ▸ h2
  | cons q ps hfull hne hch ih =>
    rcases List.mem_cons.1 hp with h | h
    · exact h ▸ hfull.le
    · exact ih h

theorem Chunked.getD_full (h : Chunked ps) (hj : j + 1 < ps.length) :
    (ps.getD j []).length = PBS := by
  induction h generalizing j with
  | nil => simp at hj
  | single q h1 h2 => simp at hj
  | cons q ps hfull hne hch ih =>
    cases j with
    | zero => simpa using hfull
    | succ j =>
      simp only [List.getD_cons_succ]
      exact ih (by simpa using hj)

theorem Chunked.take_chunked (h : Chunked ps) (m : Nat) : Chunked (ps.take m) := by
  induction h generalizing m with
  | nil => simpa using Chunked.nil
  | single q h1 h2 =>
    cases m with
    | zero => simpa using Chunked.nil
    | succ m => simpa using Chunked.single q h1 h2
  | cons q ps hfull hne hch ih =>
    cases m with
    | zero => simpa using Chunked.nil
    | succ m =>
      simp only [List.take_succ_cons]
      rcases Decidable.em (ps.take m = []) with he | he
      · rw [he]
        exact Chunked.single q (by rw [hfull]; simp [PBS]) hfull.le
      · exact Chunked.cons q (ps.take m) hfull he (ih m)

theorem Chunked.drop_chunked (h : Chunked ps) (m : Nat) : Chunked (ps.drop m) := by
  induction h generalizing m with
  | nil => simpa using Chunked.nil
  | single q h1 h2 =>
    cases m with
    | zero => simpa using Chunked.single q h1 h2
    | succ m => simpa using Chunked.nil
  | cons q ps hfull hne hch ih =>
    cases m with
    | zero => exact Chunked.cons q ps hfull hne hch
    | succ m => simpa using ih m

theorem Chunked.take_allFull (h : Chunked ps) (hm : m < ps.length) :
    AllFull (ps.take m) := by
  induction h generalizing m with
  | nil => simp at hm
  | single q h1 h2 =>
    intro p hp
    have hm0 : m = 0 := by simp at hm; omega
    subst hm0
    simp at hp
  | cons q ps hfull hne hch ih =>
    cases m with
    | zero => intro p hp; simp at hp
    | succ m =>
      intro p hp
      simp only [List.take_succ_cons, List.mem_cons] at hp
      rcases hp with h | h
      · exact h ▸ hfull
      · exact ih (by simpa using hm) p h

theorem chunked_append_full (hA : AllFull A) (hB : Chunked B) (hne : B ≠ []) :
    Chunked (A ++ B) := by
  induction A with
  | nil => simpa using hB
  | cons a A ih =>
    simp only [List.cons_append]
    refine Chunked.cons a (A ++ B) (hA a (by simp)) (by simp [hne]) ?_
    exact ih (fun p hp => hA p (by simp [hp]))

theorem chunked_of_allFull (hA : AllFull A) (hne : A ≠ []) : Chunked A := by
  induction A with
  | nil => exact absurd rfl hne
  | cons a A ih =>
    rcases Decidable.em (A = []) with he | he
    · subst he
      exact Chunked.single a (by rw [hA a (by simp)]; simp [PBS]) (hA a (by simp)).le
    · exact Chunked.cons a A (hA a (by simp)) he (ih (fun p hp => hA p (by simp [hp])) he)

theorem Chunked.flatten_take (h : Chunked ps) (m : Nat) :
    (ps.take m).flatten = ps.flatten.take (m * PBS) := by
  induction h generalizing m with
  | nil => simp
  | single q h1 h2 =>
    cases m with
    | zero => simp
    | succ m =>
      simp only [List.take_of_length_le (by simp : ([q] : List Bytes).length ≤ m + 1)]
      simp only [List.flatten_cons, List.flatten_nil, List.append_nil]
      rw [List.take_of_length_le (le_trans h2 (by nlinarith))]
  | cons q ps hfull hne hch ih =>
    cases m with
    | zero => simp
    | succ m =>
      simp only [List.take_succ_cons, List.flatten_cons]
      rw [ih]
      have h1 : (m + 1) * PBS = q.length + m * PBS := by rw [hfull]; ring
      rw [h1, List.take_append_eq_append_take, Nat.add_sub_cancel_left,
        List.take_of_length_le (by omega : q.length ≤ q.length + m * PBS)]

theorem Chunked.flatten_drop (h : Chunked ps) (m : Nat) :
    (ps.drop m).flatten = ps.flatten.drop (m * PBS) := by
  induction h generalizing m with
  | nil => simp
  | single q h1 h2 =>
    cases m with
    | zero => simp
    | succ m =>
      simp only [List.drop_of_length_le (by simp : ([q] : List Bytes).length ≤ m + 1)]
      simp only [List.flatten_cons, List.flatten_nil, List.append_nil, List.flatten]
      rw [List.drop_of_length_le (le_trans h2 (by nlinarith))]
  | cons q ps hfull hne hch ih =>
    cases m with
    | zero => simp
    | succ m =>
      simp only [List.drop_succ_cons, List.flatten_cons]
      rw [ih]
      have h1 : (m + 1) * PBS = q.length + m * PBS := by rw [hfull]; ring
      rw [h1, List.drop_append_eq_append_drop, Nat.add_sub_cancel_left,
        List.drop_of_length_le (by omega : q.length ≤ q.length + m * PBS)]
      simp

theorem Chunked.flatten_length_le (h : Chunked ps) : ps.flatten.length ≤ ps.length * PBS := by
  induction h with
  | nil => simp
  | single q h1 h2 => simpa using h2
  | cons q ps hfull hne hch ih =>
    simp only [List.flatten_cons, List.length_append, List.length_cons]
    have h4 : (ps.length + 1) * PBS = PBS + ps.length * PBS := by ring
    rw [h4, hfull]
    omega

theorem Chunked.flatten_length_lt (h : Chunked ps) (hne : ps ≠ []) :
    (ps.length - 1) * PBS < ps.flatten.length := by
  induction h with
  | nil => exact absurd rfl hne
  | single q h1 h2 => simpa using h1
  | cons q ps hfull hne2 hch ih =>
    have h2 := ih hne2
    obtain ⟨n, hn⟩ : ∃ n, ps.length = n + 1 :=
      ⟨ps.length - 1, by have := List.length_pos.2 hne2; omega⟩
    simp only [List.flatten_cons, List.length_append, List.length_cons, Nat.add_sub_cancel]
    rw [hn, hfull]
    rw [hn] at h2
    simp only [Nat.add_sub_cancel] at h2
    have h5 : (n + 1) * PBS = n * PBS + PBS := by ring
    omega

/-- The sizes recorded in the ciphertext add up: total ciphertext
bytes = plaintext bytes + per-block overhead. -/
theorem BlocksAbs.sum_length (h : BlocksAbs key fid i cs ps) :
    (cs.map List.length).sum = ps.flatten.length + cs.length * blockOverhead := by
  induction h with
  | nil => simp
  | cons i c p cs ps hc hcs ih =>
    simp only [List.map_cons, List.sum_cons, List.flatten_cons, List.length_append,
      List.length_cons, ih, hc.ct_length]
    ring

/-! ## The well-formed-state invariant -/

/-- A ciphertext file state is well formed with logical content `P`:
either empty, or a 16-byte `FID` plus a nonempty list of blocks that
abstract blockwise to chunked plaintexts flattening to `P`. -/
def WfState (key : Bytes) (st : CtState) (P : Bytes) : Prop :=
  match st with
  | none => P = []
  | some f => f.fid.length = 16 ∧ wfBytes f.fid ∧
      ∃ ps, BlocksAbs key f.fid 0 f.blocks ps ∧ Chunked ps ∧ ps ≠ [] ∧ P = ps.flatten

theorem ctSize_eq (h : WfState key st P) : ctSize st = P.length := by
  match st with
  | none => simp [ctSize, WfState] at h ⊢; simp [h]
  | some f =>
    obtain ⟨hf1, hf2, ps, habs, hch, hne, rfl⟩ := h
    simp only [ctSize, habs.sum_length, habs.length_eq]
    omega

theorem fileContent_of_wf (h : WfState key st P) : fileContent key st = some P := by
  match st with
  | none => simp [fileContent, WfState] at h ⊢; simp [h]
  | some f =>
    obtain ⟨hf1, hf2, ps, habs, hch, hne, rfl⟩ := h
    simp [fileContent, habs.decBlocksL_eq]

theorem BlocksAbs.wf_plains (h : BlocksAbs key fid i cs ps) : ∀ p ∈ ps, wfBytes p := by
  induction h with
  | nil => intro p hp; cases hp
  | cons i c p cs ps hc hcs ih =>
    intro q hq
    rcases List.mem_cons.1 hq with rfl | hmem
    · exact hc.plain_wf
    · exact ih q hmem

theorem Chunked.pos (h : Chunked ps) (hp : p ∈ ps) : 1 ≤ p.length := by
  induction h with
  | nil => cases hp
  | single q h1 h2 =>
    rw [List.mem_singleton] at hp
    exact hp ▸ h1
  | cons q ps hfull hne hch ih =>
    rcases List.mem_cons.1 hp with rfl | hmem
    · rw [hfull]; simp [PBS]
    · exact ih hmem

theorem Chunked.allFull_of_flatten (h : Chunked ps)
    (hfl : ps.flatten.length = ps.length * PBS) : AllFull ps := by
  induction h with
  | nil => intro p hp; cases hp
  | single q h1 h2 =>
    intro p hp
    rw [List.mem_singleton] at hp
    subst hp
    simpa using hfl
  | cons q ps hfull hne hch ih =>
    have hq : ps.flatten.length = ps.length * PBS := by
      simp only [List.flatten_cons, List.length_append, List.length_cons] at hfl
      have : (ps.length + 1) * PBS = PBS + ps.length * PBS := by ring
      rw [this, hfull] at hfl
      omega
    intro p hp
    rcases List.mem_cons.1 hp with rfl | hmem
    · exact hfull
    · exact ih hq p hmem

theorem BlocksAbs.head_abs (h : BlocksAbs key fid i cs ps) (hne : cs ≠ []) :
    ∃ c p cs2 ps2, cs = c :: cs2 ∧ ps = p :: ps2 ∧ BlockAbs key fid i c p ∧
      BlocksAbs key fid (i + 1) cs2 ps2 := by
  cases h with
  | nil => exact absurd rfl hne
  | cons i c p cs ps hc hcs => exact ⟨c, p, cs, ps, rfl, rfl, hc, hcs⟩

theorem wfBytes_replicate_zero (m : Nat) : wfBytes (List.replicate m 0) := by
  intro b hb
  rw [List.eq_of_mem_replicate hb]
  omega

theorem wfBytes_append (h1 : wfBytes l1) (h2 : wfBytes l2) : wfBytes (l1 ++ l2) := by
  intro b hb
  rcases List.mem_append.1 hb with h | h
  · exact h1 b h
  · exact h2 b h

theorem wfBytes_take (h : wfBytes l) (m : Nat) : wfBytes (l.take m) :=
  fun b hb => h b (List.mem_of_mem_take hb)

theorem wfBytes_drop (h : wfBytes l) (m : Nat) : wfBytes (l.drop m) :=
  fun b hb => h b (List.mem_of_mem_drop hb)

theorem flatten_replicate_zeros (m : Nat) :
    (List.replicate m (List.replicate PBS 0)).flatten = List.replicate (m * PBS) 0 := by
  induction m with
  | zero => simp
  | succ m ih =>
    simp only [List.replicate_succ, List.flatten_cons, ih]
    rw [← List.replicate_add]
    congr 1
    ring

/-- The plaintext blocks introduced by `zeroBlocks`. -/
def zeroPlains (full lastLen : Nat) : List Bytes :=
  List.replicate full (List.replicate PBS 0) ++
    (if lastLen = 0 then [] else [List.replicate lastLen 0])

theorem zeroBlocks_abs (key fid : Bytes) (ns : Nat → Bytes) (i full lastLen : Nat)
    (hns : ∀ j, goodNonce (ns j)) (hll : lastLen ≤ PBS) :
    BlocksAbs key fid i (zeroBlocks key fid ns i full lastLen) (zeroPlains full lastLen) := by
  unfold zeroBlocks zeroPlains
  refine BlocksAbs.append (BlocksAbs.holes key fid i full) ?_
  rw [List.length_replicate]
  by_cases h0 : lastLen = 0
  · simp only [h0, if_pos rfl]
    exact BlocksAbs.nil _
  · simp only [if_neg h0]
    exact BlocksAbs.cons _ _ _ _ _
      (BlockAbs.enc _ _ (hns (i + full)) (wfBytes_replicate_zero _) (by simpa using hll))
      (BlocksAbs.nil _)

theorem zeroPlains_flatten (full lastLen : Nat) :
    (zeroPlains full lastLen).flatten = List.replicate (full * PBS + lastLen) 0 := by
  unfold zeroPlains
  rw [List.flatten_append, flatten_replicate_zeros]
  by_cases h0 : lastLen = 0
  · simp [h0]
  · simp only [if_neg h0]
    simp [← List.replicate_add]

theorem zeroPlains_chunked (full lastLen : Nat) (hll : lastLen ≤ PBS) :
    Chunked (zeroPlains full lastLen) := by
  unfold zeroPlains
  by_cases h0 : lastLen = 0
  · subst h0
    rw [if_pos rfl, List.append_nil]
    rcases Nat.eq_zero_or_pos full with hf | hf
    · simp [hf, Chunked.nil]
    · exact chunked_of_allFull
        (fun p hp => by have := List.eq_of_mem_replicate hp; subst this; simp)
        (by simp; omega)
  · rw [if_neg h0]
    exact chunked_append_full
      (fun p hp => by have := List.eq_of_mem_replicate hp; subst this; simp)
      (Chunked.single _ (by simp; omega) (by simpa using hll))
      (by simp)

theorem zeroPlains_ne_nil (full lastLen : Nat) (hpos : 1 ≤ full * PBS + lastLen) :
    zeroPlains full lastLen ≠ [] := by
  intro hc
  have h2 := congrArg List.length (congrArg List.flatten hc)
  rw [zeroPlains_flatten] at h2
  simp only [List.length_replicate, List.flatten_nil, List.length_nil] at h2
  omega

theorem plainTrunc_of_le (h : n ≤ P.length) : plainTrunc P n = P.take n := by
  simp [plainTrunc, zpad, Nat.sub_eq_zero_of_le h]

theorem plainTrunc_self (P : Bytes) : plainTrunc P P.length = P := by
  rw [plainTrunc_of_le (le_refl _)]
  simp

theorem plainTrunc_of_ge (h : P.length ≤ n) :
    plainTrunc P n = P ++ List.replicate (n - P.length) 0 := by
  unfold plainTrunc zpad
  rw [List.take_of_length_le (by simp; omega)]

/-- `read(off, len)` on a well-formed file returns exactly the
requested window of the logical content. -/
theorem readOp_ok (key : Bytes) (st : CtState) (P : Bytes) (off len : Nat)
    (h : WfState key st P) :
    readOp key st off len = .ok ((P.drop off).take len) := by
  match st with
  | none =>
    simp only [WfState] at h
    subst h
    simp [readOp]
  | some f =>
    obtain ⟨hf1, hf2, ps, habs, hch, hne, rfl⟩ := h
    have hsz : ctSize (some f) = ps.flatten.length :=
      ctSize_eq (show WfState key (some f) ps.flatten from ⟨hf1, hf2, ps, habs, hch, hne, rfl⟩)
    simp only [readOp, hsz]
    set L := ps.flatten.length with hL
    by_cases hcase : min (off + len) L ≤ off
    · rw [if_pos hcase]
      have hnil : (List.take len (List.drop off ps.flatten)) = [] := by
        rcases Nat.le_total (off + len) L with h1 | h1
        · have hl0 : len = 0 := by omega
          simp [hl0]
        · have hLoff : L ≤ off := by omega
          rw [List.drop_of_length_le (by omega)]
          simp
      rw [hnil]
    · rw [if_neg hcase]
      push_neg at hcase
      set endo := min (off + len) L with hendo
      set i0 := off / PBS with hi0
      set i1 := (endo - 1) / PBS with hi1
      have habs2 := (habs.drop_abs i0).take_abs (i1 - i0 + 1)
      rw [Nat.zero_add] at habs2
      rw [habs2.decBlocksL_eq]
      have key1 : (List.take (i1 - i0 + 1) (List.drop i0 ps)).flatten
          = (ps.flatten.drop (i0 * PBS)).take ((i1 - i0 + 1) * PBS) := by
        rw [(hch.drop_chunked i0).flatten_take, hch.flatten_drop]
      have hP : PBS = 4096 := rfl
      have hio : i0 * PBS ≤ off := by
        rw [hi0]
        exact Nat.div_mul_le_self off PBS
      have hoff : i0 * PBS + (off - i0 * PBS) = off := by omega
      have hup : endo ≤ (i1 + 1) * PBS := by
        rw [hi1, hP] at *
        omega
      have hM : endo - off ≤ (i1 - i0 + 1) * PBS - (off - i0 * PBS) := by
        have hii : i0 ≤ i1 := by
          rw [hi0, hi1, hP] at *
          omega
        have hexp : (i1 - i0 + 1) * PBS + i0 * PBS = (i1 + 1) * PBS := by
          have : i1 - i0 + 1 + i0 = i1 + 1 := by omega
          calc (i1 - i0 + 1) * PBS + i0 * PBS = (i1 - i0 + 1 + i0) * PBS := by ring
            _ = (i1 + 1) * PBS := by rw [this]
        omega
      simp only [key1, List.drop_take, List.drop_drop, hoff, List.take_take]
      rw [min_eq_left hM]
      have hfinal : List.take (endo - off) (List.drop off ps.flatten)
          = List.take len (List.drop off ps.flatten) := by
        rcases Nat.le_total (off + len) L with h1 | h1
        · have : endo = off + len := by omega
          rw [this]
          simp
        · have : endo = L := by omega
          have hlen2 : (List.drop off ps.flatten).length = L - off := by
            simp [hL]
          rw [List.take_of_length_le (by omega), List.take_of_length_le (by omega)]
      rw [hfinal]

/-- `truncate(n)` on a well-formed file succeeds and produces the
zero-extended-or-cut content of length exactly `n`. -/
theorem truncOp_ok (key : Bytes) (rng : Rng) (st : CtState) (P : Bytes) (n : Nat)
    (h : WfState key st P) (hr : goodRng rng) :
    ∃ st', truncOp key rng st n = .ok st' ∧ WfState key st' (plainTrunc P n) := by
  have hsz := ctSize_eq h
  have hP4096 : PBS = 4096 := rfl
  by_cases h0 : n = ctSize st
  · refine ⟨st, ?_, ?_⟩
    · simp only [truncOp]
      rw [if_pos h0]
    · rw [h0, hsz, plainTrunc_self]
      exact h
  by_cases hn0 : n = 0
  · refine ⟨none, ?_, ?_⟩
    · simp only [truncOp]
      rw [if_neg h0, if_pos hn0]
    · subst hn0
      simp [plainTrunc, WfState]
  by_cases hlt : n < ctSize st
  · -- shrink
    match st with
    | none =>
      exact absurd hlt (by simp [ctSize])
    | some f =>
      obtain ⟨hf1, hf2, ps, habs, hch, hne, hPeq⟩ := h
      have hk : f.blocks.length = ps.length := habs.length_eq
      have hpslen : 1 ≤ ps.length := List.length_pos.2 hne
      have hlenlt := hch.flatten_length_lt hne
      have hlenle := hch.flatten_length_le
      have hszf : ctSize (some f) = ps.flatten.length := by rw [hsz, hPeq]
      have hltF : n < ps.flatten.length := by rw [← hszf]; exact hlt
      have hnP : n ≤ P.length := by rw [hPeq]; omega
      have hq1 : 1 ≤ (n + PBS - 1) / PBS := by rw [hP4096]; omega
      have hqlen : (n + PBS - 1) / PBS ≤ ps.length := by
        rw [hP4096]
        rw [hP4096] at hlenle
        omega
      by_cases hmod : n % PBS = 0
      · refine ⟨some ⟨f.fid, f.blocks.take ((n + PBS - 1) / PBS)⟩, ?_, ?_⟩
        · simp only [truncOp]
          rw [if_neg h0, if_neg hn0, if_pos hlt, if_pos hmod]
        · refine ⟨hf1, hf2, ps.take ((n + PBS - 1) / PBS),
            habs.take_abs _, hch.take_chunked _, ?_, ?_⟩
          · apply List.ne_nil_of_length_pos
            rw [List.length_take]
            omega
          · rw [plainTrunc_of_le hnP, hch.flatten_take, hPeq]
            congr 1
            rw [hP4096]
            rw [hP4096] at hmod
            omega
      · have hq2 : (n + PBS - 1) / PBS - 1 < f.blocks.length := by
          rw [hk]; omega
        have hdrop := habs.drop_abs ((n + PBS - 1) / PBS - 1)
        rw [Nat.zero_add] at hdrop
        have hdropne : f.blocks.drop ((n + PBS - 1) / PBS - 1) ≠ [] := by
          apply List.ne_nil_of_length_pos
          rw [List.length_drop]
          omega
        obtain ⟨c, p, cs2, ps2, hceq, hpeq2, hcabs, hrest⟩ := hdrop.head_abs hdropne
        have hpsdrop := hch.flatten_drop ((n + PBS - 1) / PBS - 1)
        have hchdrop := hch.drop_chunked ((n + PBS - 1) / PBS - 1)
        rw [hpeq2] at hchdrop hpsdrop
        have hmodle : n % PBS ≤ p.length := by
          cases hchdrop with
          | single _ h1 h2 =>
            have hl : p.length = ps.flatten.length - ((n + PBS - 1) / PBS - 1) * PBS := by
              have := congrArg List.length hpsdrop
              simp only [List.flatten_cons, List.flatten_nil, List.append_nil,
                List.length_drop] at this
              omega
            rw [hl, hP4096]
            rw [hP4096] at hmod
            omega
          | cons _ _ hfull _ _ =>
            rw [hfull, hP4096]
            rw [hP4096] at hmod
            omega
        refine ⟨some ⟨f.fid, f.blocks.take ((n + PBS - 1) / PBS - 1) ++
          [encBlock key f.fid ((n + PBS - 1) / PBS - 1)
            (rng.nonce ((n + PBS - 1) / PBS - 1)) (p.take (n % PBS))]⟩, ?_, ?_⟩
        · simp only [truncOp]
          rw [if_neg h0, if_neg hn0, if_pos hlt, if_neg hmod, hceq]
          simp only [List.head?_cons]
          rw [hcabs.decBlock_eq]
        · have hlen_take : (f.blocks.take ((n + PBS - 1) / PBS - 1)).length
              = (n + PBS - 1) / PBS - 1 := by
            rw [List.length_take]
            omega
          refine ⟨hf1, hf2, ps.take ((n + PBS - 1) / PBS - 1) ++ [p.take (n % PBS)], ?_, ?_, ?_, ?_⟩
          · refine BlocksAbs.append (habs.take_abs _) ?_
            rw [hlen_take, Nat.zero_add]
            exact BlocksAbs.cons _ _ _ _ _
              (BlockAbs.enc _ _ (hr.2.2 _) (wfBytes_take hcabs.plain_wf _)
                (by rw [List.length_take, hP4096]; omega))
              (BlocksAbs.nil _)
          · refine chunked_append_full (hch.take_allFull (by omega)) ?_ (by simp)
            refine Chunked.single _ ?_ ?_
            · rw [List.length_take, hP4096]
              have hmod4 := hmod
              have hmodle4 := hmodle
              rw [hP4096] at hmod4 hmodle4
              omega
            · rw [List.length_take, hP4096]
              omega
          · simp
          · rw [plainTrunc_of_le hnP, hPeq]
            have hn_split : n = ((n + PBS - 1) / PBS - 1) * PBS + n % PBS := by
              rw [hP4096]
              rw [hP4096] at hmod
              omega
            conv_lhs => rw [hn_split]
            rw [List.take_add, List.flatten_append]
            congr 1
            · rw [hch.flatten_take]
            · rw [← hpsdrop]
              simp only [List.flatten_cons]
              rw [List.take_append_of_le_length hmodle]
              simp
  · -- grow: n > size
    have hgt : ctSize st < n := by omega
    match st with
    | none =>
      have hP0 : P = [] := by simpa [WfState] using h
      refine ⟨some ⟨rng.fid, zeroBlocks key rng.fid rng.nonce 0 (n / PBS) (n % PBS)⟩, ?_, ?_⟩
      · simp only [truncOp]
        rw [if_neg h0, if_neg hn0, if_neg hlt]
      · subst hP0
        refine ⟨hr.1, hr.2.1, zeroPlains (n / PBS) (n % PBS),
          zeroBlocks_abs key rng.fid rng.nonce 0 _ _ hr.2.2 (by rw [hP4096]; omega),
          zeroPlains_chunked _ _ (by rw [hP4096]; omega),
          zeroPlains_ne_nil _ _ (by rw [hP4096]; omega),
          ?_⟩
        rw [zeroPlains_flatten, plainTrunc_of_ge (by simp)]
        simp only [List.nil_append, List.length_nil, Nat.sub_zero]
        congr 1
        rw [hP4096]
        omega
    | some f =>
      obtain ⟨hf1, hf2, ps, habs, hch, hne, hPeq⟩ := h
      have hk : f.blocks.length = ps.length := habs.length_eq
      have hpslen : 1 ≤ ps.length := List.length_pos.2 hne
      have hkpos : ¬ f.blocks.length = 0 := by rw [hk]; omega
      have hlenlt := hch.flatten_length_lt hne
      have hlenle := hch.flatten_length_le
      have hszf : ctSize (some f) = ps.flatten.length := by rw [hsz, hPeq]
      have hgtF : ps.flatten.length < n := by rw [← hszf]; exact hgt
      have hPle : P.length ≤ n := by rw [hPeq]; omega
      -- extract the last block
      have hdrop := habs.drop_abs (f.blocks.length - 1)
      rw [Nat.zero_add] at hdrop
      have hdropne : f.blocks.drop (f.blocks.length - 1) ≠ [] := by
        apply List.ne_nil_of_length_pos
        rw [List.length_drop]
        omega
      obtain ⟨c, p, cs2, ps2, hceq, hpeq2, hcabs, hrest⟩ := hdrop.head_abs hdropne
      have hcs2 : cs2 = [] := by
        have h2 := congrArg List.length hceq
        rw [List.length_drop] at h2
        simp only [List.length_cons] at h2
        have : cs2.length = 0 := by omega
        exact List.length_eq_zero.1 this
      have hps2 : ps2 = [] := by
        have h2 := hrest.length_eq
        rw [hcs2] at h2
        simp only [List.length_nil] at h2
        exact List.length_eq_zero.1 h2.symm
      subst hcs2
      subst hps2
      have hpsdrop := hch.flatten_drop (f.blocks.length - 1)
      rw [hpeq2] at hpsdrop
      simp only [List.flatten_cons, List.flatten_nil, List.append_nil] at hpsdrop
      have hpl : p.length = ps.flatten.length - (f.blocks.length - 1) * PBS := by
        have h2 := congrArg List.length hpsdrop
        rw [List.length_drop] at h2
        exact h2
      have hplle : p.length ≤ PBS := hcabs.plain_length_le
      have hplpos : (f.blocks.length - 1) * PBS < ps.flatten.length := by
        rw [hk]; exact hlenlt
      have hpl4 := hpl
      have hplle4 := hplle
      have hplpos4 := hplpos
      rw [hP4096] at hpl4 hplle4 hplpos4
      by_cases hlltgt : ctSize (some f) - (f.blocks.length - 1) * PBS
          = min (n - (f.blocks.length - 1) * PBS) PBS
      · -- the last block is already full: only append zero blocks
        have hllPBS : p.length = PBS := by
          have ht := hlltgt
          rw [hszf, hP4096] at ht
          rw [hP4096]
          omega
        have hll4 := hllPBS
        rw [hP4096] at hll4
        have hnk : f.blocks.length * PBS < n := by
          rw [hP4096]
          omega
        have hflatk : ps.flatten.length = f.blocks.length * PBS := by
          rw [hP4096]
          omega
        refine ⟨some ⟨f.fid, f.blocks ++
          zeroBlocks key f.fid rng.nonce f.blocks.length
            (n / PBS - f.blocks.length) (n % PBS)⟩, ?_, ?_⟩
        · simp only [truncOp]
          rw [if_neg h0, if_neg hn0, if_neg hlt, if_neg hkpos, if_pos hlltgt,
            if_neg (by omega : ¬ n ≤ f.blocks.length * PBS)]
        · refine ⟨hf1, hf2, ps ++ zeroPlains (n / PBS - f.blocks.length) (n % PBS), ?_, ?_, ?_, ?_⟩
          · refine BlocksAbs.append habs ?_
            rw [Nat.zero_add]
            exact zeroBlocks_abs key f.fid rng.nonce _ _ _ hr.2.2 (by rw [hP4096]; omega)
          · refine chunked_append_full (hch.allFull_of_flatten (by rw [hflatk, hk])) ?_ ?_
            · exact zeroPlains_chunked _ _ (by rw [hP4096]; omega)
            · refine zeroPlains_ne_nil _ _ ?_
              rw [hP4096]
              rw [hP4096] at hnk
              omega
          · simp [hne]
          · have hnk4 := hnk
            have hflatk4 := hflatk
            rw [hP4096] at hnk4 hflatk4
            have hcount : (n / PBS - f.blocks.length) * PBS + n % PBS
                = n - ps.flatten.length := by
              rw [hP4096]
              omega
            rw [List.flatten_append, zeroPlains_flatten, plainTrunc_of_ge hPle, hPeq, hcount]
      · -- the last block must first be extended by read-modify-write
        have hlllt : ctSize (some f) - (f.blocks.length - 1) * PBS
            < min (n - (f.blocks.length - 1) * PBS) PBS := by
          rw [hszf] at hlltgt ⊢
          omega
        refine ⟨some ⟨f.fid, f.blocks.take (f.blocks.length - 1) ++
          [encBlock key f.fid (f.blocks.length - 1) (rng.nonce (f.blocks.length - 1))
            (p ++ List.replicate
              (min (n - (f.blocks.length - 1) * PBS) PBS
                - (ctSize (some f) - (f.blocks.length - 1) * PBS)) 0)] ++
          (if n ≤ f.blocks.length * PBS then []
           else zeroBlocks key f.fid rng.nonce f.blocks.length
             (n / PBS - f.blocks.length) (n % PBS))⟩, ?_, ?_⟩
        · simp only [truncOp]
          rw [if_neg h0, if_neg hn0, if_neg hlt, if_neg hkpos, if_neg hlltgt, hceq]
          simp only [List.head?_cons]
          rw [hcabs.decBlock_eq]
        · have hlen_take : (f.blocks.take (f.blocks.length - 1)).length
              = f.blocks.length - 1 := by
            rw [List.length_take]
            omega
          have hpll : p.length = ctSize (some f) - (f.blocks.length - 1) * PBS := by
            rw [hszf]; omega
          refine ⟨hf1, hf2, ps.take (f.blocks.length - 1) ++
            [p ++ List.replicate
              (min (n - (f.blocks.length - 1) * PBS) PBS
                - (ctSize (some f) - (f.blocks.length - 1) * PBS)) 0] ++
            (if n ≤ f.blocks.length * PBS then []
             else zeroPlains (n / PBS - f.blocks.length) (n % PBS)), ?_, ?_, ?_, ?_⟩
          · rw [List.append_assoc, List.append_assoc]
            refine BlocksAbs.append (habs.take_abs _) ?_
            rw [hlen_take, Nat.zero_add]
            refine BlocksAbs.cons _ _ _ _ _
              (BlockAbs.enc _ _ (hr.2.2 _)
                (wfBytes_append hcabs.plain_wf (wfBytes_replicate_zero _))
                (by
                  rw [List.length_append, List.length_replicate, hpll]
                  omega)) ?_
            by_cases hnle : n ≤ f.blocks.length * PBS
            · rw [if_pos hnle, if_pos hnle]
              exact BlocksAbs.nil _
            · rw [if_neg hnle, if_neg hnle]
              have : f.blocks.length - 1 + 1 = f.blocks.length := by omega
              rw [this]
              exact zeroBlocks_abs key f.fid rng.nonce _ _ _ hr.2.2 (by rw [hP4096]; omega)
          · rw [List.append_assoc]
            refine chunked_append_full (hch.take_allFull (by omega)) ?_ (by simp)
            by_cases hnle : n ≤ f.blocks.length * PBS
            · rw [if_pos hnle]
              simp only [List.append_nil]
              refine Chunked.single _ ?_ ?_
              · rw [List.length_append, List.length_replicate]
                omega
              · rw [List.length_append, List.length_replicate, hpll]
                omega
            · rw [if_neg hnle]
              refine Chunked.cons _ _ ?_ ?_ ?_
              · rw [List.length_append, List.length_replicate, hpll]
                have hlllt4 := hlllt
                have hnle4 := hnle
                rw [hszf] at hlllt4 ⊢
                rw [hP4096] at hlllt4 hnle4 ⊢
                omega
              · refine zeroPlains_ne_nil _ _ ?_
                rw [hP4096]
                rw [hP4096] at hnle
                omega
              · exact zeroPlains_chunked _ _ (by rw [hP4096]; omega)
          · simp
          · have hLsplit : ps.flatten = (ps.take (f.blocks.length - 1)).flatten ++ p := by
              conv_lhs => rw [← List.take_append_drop (f.blocks.length - 1) ps]
              rw [List.flatten_append]
              congr 1
              rw [hpeq2]
              simp
            rw [plainTrunc_of_ge hPle, hPeq, List.append_assoc, List.flatten_append,
              hLsplit, List.append_assoc]
            congr 1
            simp only [List.flatten_append, List.flatten_cons, List.flatten_nil,
              List.append_nil]
            by_cases hnle : n ≤ f.blocks.length * PBS
            · rw [if_pos hnle]
              simp only [List.flatten_nil, List.append_nil, List.append_assoc]
              have hnle4 := hnle
              have hlllt4 := hlllt
              rw [hP4096] at hnle4
              rw [hszf, hP4096] at hlllt4
              have hcount : min (n - (f.blocks.length - 1) * PBS) PBS
                  - (ctSize (some f) - (f.blocks.length - 1) * PBS)
                  = n - ps.flatten.length := by
                rw [hszf, hP4096]
                omega
              rw [hcount, ← hLsplit]
            · rw [if_neg hnle]
              rw [zeroPlains_flatten, List.append_assoc, ← List.replicate_add]
              have hnle4 := hnle
              have hlllt4 := hlllt
              rw [hP4096] at hnle4
              rw [hszf, hP4096] at hlllt4
              have hcount : min (n - (f.blocks.length - 1) * PBS) PBS
                  - (ctSize (some f) - (f.blocks.length - 1) * PBS)
                  + ((n / PBS - f.blocks.length) * PBS + n % PBS)
                  = n - ps.flatten.length := by
                rw [hszf, hP4096]
                omega
              rw [hcount, ← hLsplit]

/-! ## Correctness of the write path -/

/-- Shape of the block-aligned units of one write: the first unit has
between 1 and `cap` bytes; if more units follow, the first is exactly
`cap` bytes and the rest are `PBS`-capacity units. -/
inductive Chunks : Nat → List Bytes → Prop where
  | nil (cap : Nat) : Chunks cap []
  | single (cap : Nat) (c : Bytes) : 1 ≤ c.length → c.length ≤ cap → Chunks cap [c]
  | more (cap : Nat) (c : Bytes) (cs : List Bytes) : c.length = cap → cs ≠ [] →
      Chunks PBS cs → Chunks cap (c :: cs)

theorem Chunks.flatten_pos (h : Chunks cap cs) (hne : cs ≠ []) : 1 ≤ cs.flatten.length := by
  induction h with
  | nil => exact absurd rfl hne
  | single cap c h1 h2 => simpa using h1
  | more cap c cs hc hne2 hcs ih =>
    simp only [List.flatten_cons, List.length_append]
    have := ih hne2
    omega

theorem Chunked.uncons (h : Chunked (p :: ps)) :
    Chunked ps ∧ (ps ≠ [] → p.length = PBS) ∧ 1 ≤ p.length ∧ p.length ≤ PBS := by
  cases h with
  | single _ h1 h2 => exact ⟨Chunked.nil, fun hc => absurd rfl hc, h1, h2⟩
  | cons _ _ hfull hne hch =>
    exact ⟨hch, fun _ => hfull, by rw [hfull]; simp [PBS], hfull.le⟩

/-- `chunkData` with enough fuel splits the data into units of the
required shape, losing nothing. -/
theorem chunkData_spec : ∀ (fuel cap : Nat) (d : Bytes), d.length ≤ fuel → 1 ≤ cap →
    cap ≤ PBS →
    (chunkData fuel cap d).flatten = d ∧ (d ≠ [] → Chunks cap (chunkData fuel cap d)) ∧
      (d = [] → chunkData fuel cap d = []) := by
  intro fuel
  induction fuel with
  | zero =>
    intro cap d hd hcap1 hcap2
    have : d = [] := by
      cases d with
      | nil => rfl
      | cons x d2 => simp at hd
    subst this
    exact ⟨rfl, fun hc => absurd rfl hc, fun _ => rfl⟩
  | succ fuel ih =>
    intro cap d hd hcap1 hcap2
    cases d with
    | nil => exact ⟨rfl, fun hc => absurd rfl hc, fun _ => rfl⟩
    | cons x d2 =>
      simp only [chunkData]
      have hlen2 : ((x :: d2).drop cap).length ≤ fuel := by
        rw [List.length_drop]
        simp only [List.length_cons]
        simp only [List.length_cons] at hd
        omega
      obtain ⟨ihf, ihc, ihn⟩ := ih PBS ((x :: d2).drop cap) hlen2 (by simp [PBS]) (le_refl _)
      constructor
      · simp only [List.flatten_cons, ihf]
        exact List.take_append_drop _ _
      refine ⟨fun _ => ?_, fun hc => by cases hc⟩
      by_cases hrest : (x :: d2).drop cap = []
      · rw [ihn hrest]
        refine Chunks.single cap _ ?_ ?_
        · rw [List.length_take]
          simp
          omega
        · rw [List.length_take]
          omega
      · refine Chunks.more cap _ _ ?_ ?_ (ihc hrest)
        · rw [List.length_take]
          have : cap < (x :: d2).length := by
            by_contra hcon
            exact hrest (List.drop_of_length_le (by omega))
          omega
        · intro hx
          rw [hx] at ihf
          exact hrest ihf.symm

/-- The central write lemma: merging the block-aligned units of a
write over the existing blocks succeeds on a well-formed tail and
splices the data into the plaintext at intra-block offset `r`. -/
theorem writeChunks_ok (key fid : Bytes) (ns : Nat → Bytes) (hns : ∀ j, goodNonce (ns j))
    (cap : Nat) (cs : List Bytes) (hchunks : Chunks cap cs) :
    ∀ (r i : Nat) (olds ps : List Bytes),
      BlocksAbs key fid i olds ps → Chunked ps → r + cap = PBS →
      (olds = [] → r = 0) →
      (∀ p0 ps0, ps = p0 :: ps0 → r ≤ p0.length) →
      (∀ c0 ∈ cs, wfBytes c0) →
      ∃ nb ps2, writeChunks key fid ns r i olds cs = some nb ∧
        BlocksAbs key fid i nb ps2 ∧ Chunked ps2 ∧
        ps2.flatten
          = ps.flatten.take r ++ cs.flatten ++ ps.flatten.drop (r + cs.flatten.length) := by
  induction hchunks with
  | nil cap =>
    intro r i olds ps habs hch hcap holds hrp hwf
    refine ⟨olds, ps, by cases olds <;> rfl, habs, hch, ?_⟩
    simp only [List.flatten_nil, List.length_nil, Nat.add_zero, List.append_nil]
    rw [List.take_append_drop]
  | single cap c h1 h2 =>
    intro r i olds ps habs hch hcap holds hrp hwf
    have hwfc : wfBytes c := hwf c (by simp)
    cases olds with
    | nil =>
      cases habs
      have hr0 : r = 0 := holds rfl
      subst hr0
      refine ⟨[encBlock key fid i (ns i) c], [c], ?_, ?_, ?_, ?_⟩
      · simp [writeChunks]
      · exact BlocksAbs.cons _ _ _ _ _
          (BlockAbs.enc _ _ (hns i) hwfc (by omega)) (BlocksAbs.nil _)
      · exact Chunked.single _ h1 (by omega)
      · simp
    | cons o olds2 =>
      cases habs with
      | cons _ _ p _ ps2 hoabs habs2 =>
        obtain ⟨hch2, hfull2, hp1, hp2⟩ := hch.uncons
        have hrle : r ≤ p.length := hrp p ps2 rfl
        by_cases hfc : r = 0 ∧ c.length = PBS
        · -- fully covering unit: written without reading the old block
          refine ⟨encBlock key fid i (ns i) c :: olds2, c :: ps2, ?_, ?_, ?_, ?_⟩
          · simp only [writeChunks, if_pos hfc]
            cases olds2 <;> rfl
          · exact BlocksAbs.cons _ _ _ _ _
              (BlockAbs.enc _ _ (hns i) hwfc (by omega)) habs2
          · rcases Decidable.em (ps2 = []) with he | he
            · subst he
              exact Chunked.single _ h1 (by omega)
            · exact Chunked.cons _ _ hfc.2 he hch2
          · obtain ⟨hr0, hcPBS⟩ := hfc
            subst hr0
            have hdropC : (p ++ ps2.flatten).drop c.length = ps2.flatten := by
              rcases Decidable.em (ps2 = []) with he | he
              · subst he
                simp only [List.flatten_nil, List.append_nil, List.drop_nil]
                exact List.drop_of_length_le (by omega)
              · rw [List.drop_append_eq_append_drop,
                  List.drop_of_length_le (by rw [hfull2 he]; omega)]
                simp only [List.nil_append]
                have hz : c.length - p.length = 0 := by
                  rw [hfull2 he, hcPBS]
                  omega
                rw [hz, List.drop_zero]
            simp only [List.flatten_cons, List.flatten_nil, List.append_nil,
              List.take_zero, List.nil_append, List.length_nil, Nat.zero_add,
              Nat.add_zero]
            rw [hdropC]
        · -- edge unit: read-modify-write of the old block
          refine ⟨encBlock key fid i (ns i)
              (p.take r ++ c ++ p.drop (r + c.length)) :: olds2,
            (p.take r ++ c ++ p.drop (r + c.length)) :: ps2, ?_, ?_, ?_, ?_⟩
          · simp only [writeChunks, if_neg hfc, hoabs.decBlock_eq]
            cases olds2 <;> rfl
          · refine BlocksAbs.cons _ _ _ _ _
              (BlockAbs.enc _ _ (hns i)
                (wfBytes_append (wfBytes_append (wfBytes_take hoabs.plain_wf _) hwfc)
                  (wfBytes_drop hoabs.plain_wf _))
                (by
                  simp only [List.length_append, List.length_take, List.length_drop]
                  omega)) habs2
          · rcases Decidable.em (ps2 = []) with he | he
            · subst he
              refine Chunked.single _ ?_ ?_
              · simp only [List.length_append, List.length_take, List.length_drop]
                omega
              · simp only [List.length_append, List.length_take, List.length_drop]
                omega
            · refine Chunked.cons _ _ ?_ he hch2
              have hpfull := hfull2 he
              simp only [List.length_append, List.length_take, List.length_drop, hpfull]
              omega
          · simp only [List.flatten_cons, List.flatten_nil, List.append_nil,
              List.length_nil, Nat.add_zero]
            rw [List.take_append_of_le_length hrle]
            by_cases hcover : r + c.length ≤ p.length
            · rw [List.drop_append_of_le_length hcover]
              simp [List.append_assoc]
            · have hps2nil : ps2 = [] := by
                by_contra hcon
                have := hfull2 hcon
                omega
              subst hps2nil
              simp [List.append_assoc]
  | more cap c cs hclen hcne hcs ih =>
    intro r i olds ps habs hch hcap holds hrp hwf
    have hwfc : wfBytes c := hwf c (by simp)
    have hcsfpos : 1 ≤ cs.flatten.length := hcs.flatten_pos hcne
    cases olds with
    | nil =>
      cases habs
      have hr0 : r = 0 := holds rfl
      subst hr0
      obtain ⟨nb2, ps2, heq2, habs2, hch2, hfl2⟩ :=
        ih 0 (i + 1) [] [] (BlocksAbs.nil _) Chunked.nil (by omega)
          (fun _ => rfl) (fun p0 ps0 hc => by cases hc) (fun c0 hc0 => hwf c0 (by simp [hc0]))
      refine ⟨encBlock key fid i (ns i) c :: nb2, c :: ps2, ?_, ?_, ?_, ?_⟩
      · simp only [writeChunks, heq2]
        rfl
      · exact BlocksAbs.cons _ _ _ _ _
          (BlockAbs.enc _ _ (hns i) hwfc (by omega)) habs2
      · have hps2ne : ps2 ≠ [] := by
          intro hc
          have h3 := congrArg List.length hfl2
          rw [hc] at h3
          simp only [List.flatten_nil, List.length_nil, List.length_append,
            List.length_take, List.length_drop, Nat.zero_add] at h3
          omega
        exact Chunked.cons _ _ (by omega) hps2ne hch2
      · simp only [List.flatten_cons, hfl2]
        simp
    | cons o olds2 =>
      cases habs with
      | cons _ _ p _ psts hoabs habs2 =>
        obtain ⟨hch2, hfull2, hp1, hp2⟩ := hch.uncons
        have hrle : r ≤ p.length := hrp p psts rfl
        obtain ⟨nb2, ps2, heq2, habs2r, hch2r, hfl2⟩ :=
          ih 0 (i + 1) olds2 psts habs2 hch2 (by omega)
            (fun ho => rfl) (fun p0 ps0 hc => by omega)
            (fun c0 hc0 => hwf c0 (by simp [hc0]))
        have hps2ne : ps2 ≠ [] := by
          intro hc
          have h3 := congrArg List.length hfl2
          rw [hc] at h3
          simp only [List.flatten_nil, List.length_nil, List.length_append,
            List.length_take, List.length_drop, Nat.zero_add] at h3
          omega
        by_cases hfc : r = 0 ∧ c.length = PBS
        · refine ⟨encBlock key fid i (ns i) c :: nb2, c :: ps2, ?_, ?_, ?_, ?_⟩
          · simp only [writeChunks, if_pos hfc, heq2]
            rfl
          · exact BlocksAbs.cons _ _ _ _ _
              (BlockAbs.enc _ _ (hns i) hwfc (by omega)) habs2r
          · exact Chunked.cons _ _ hfc.2 hps2ne hch2r
          · obtain ⟨hr0, hcPBS⟩ := hfc
            subst hr0
            have hdropPBS : (p ++ psts.flatten).drop (c.length + cs.flatten.length)
                = psts.flatten.drop cs.flatten.length := by
              rcases Decidable.em (psts = []) with he | he
              · subst he
                simp only [List.flatten_nil, List.append_nil, List.drop_nil]
                exact List.drop_of_length_le (by omega)
              · rw [List.drop_append_eq_append_drop,
                  List.drop_of_length_le (by rw [hfull2 he]; omega)]
                simp only [List.nil_append]
                congr 1
                rw [hfull2 he, hcPBS]
                omega
            simp only [List.flatten_cons, hfl2, List.take_zero, List.nil_append,
              List.length_append, Nat.zero_add, List.length_nil, Nat.add_zero]
            rw [hdropPBS]
            simp [List.append_assoc]
        · have hrclen : r + c.length = PBS := by rw [hclen]; omega
          have hdropped : p.drop (r + c.length) = [] :=
            List.drop_of_length_le (by omega)
          have hdrop2 : (p ++ psts.flatten).drop (r + (c.length + cs.flatten.length))
              = psts.flatten.drop cs.flatten.length := by
            rcases Decidable.em (psts = []) with he | he
            · subst he
              simp only [List.flatten_nil, List.append_nil, List.drop_nil]
              exact List.drop_of_length_le (by omega)
            · rw [List.drop_append_eq_append_drop,
                List.drop_of_length_le (by rw [hfull2 he]; omega)]
              simp only [List.nil_append]
              congr 1
              rw [hfull2 he]
              omega
          refine ⟨encBlock key fid i (ns i) (p.take r ++ c ++ p.drop (r + c.length)) :: nb2,
            (p.take r ++ c ++ p.drop (r + c.length)) :: ps2, ?_, ?_, ?_, ?_⟩
          · simp only [writeChunks, if_neg hfc, hoabs.decBlock_eq, heq2]
            rfl
          · refine BlocksAbs.cons _ _ _ _ _
              (BlockAbs.enc _ _ (hns i)
                (wfBytes_append (wfBytes_append (wfBytes_take hoabs.plain_wf _) hwfc)
                  (wfBytes_drop hoabs.plain_wf _))
                (by
                  simp only [List.length_append, List.length_take, List.length_drop]
                  omega)) habs2r
          · refine Chunked.cons _ _ ?_ hps2ne hch2r
            rw [hdropped]
            simp only [List.append_nil, List.length_append, List.length_take]
            omega
          · simp only [List.flatten_cons, hfl2, List.length_append]
            rw [List.take_append_of_le_length hrle, hdropped]
            simp only [List.append_nil, List.nil_append, Nat.zero_add]
            rw [hdrop2]
            simp [List.append_assoc]

/-- Splice phase of a write on a file whose size is at least `off`. -/
theorem writeBlocks_ok (key : Bytes) (rng : Rng) (fid : Bytes) (blocks : List Bytes)
    (ps : List Bytes) (off : Nat) (d : Bytes)
    (hfid1 : fid.length = 16) (hfid2 : wfBytes fid)
    (habs : BlocksAbs key fid 0 blocks ps) (hch : Chunked ps)
    (hr : goodRng rng) (hd : wfBytes d) (hne : d ≠ [])
    (hoffle : off ≤ ps.flatten.length) :
    ∃ nb, writeChunks key fid rng.nonce (off % PBS) (off / PBS)
        (blocks.drop (off / PBS)) (chunkData d.length (PBS - off % PBS) d) = some nb ∧
      WfState key (some ⟨fid, blocks.take (off / PBS) ++ nb⟩)
        (ps.flatten.take off ++ d ++ ps.flatten.drop (off + d.length)) := by
  have hP4096 : PBS = 4096 := rfl
  have hlenle := hch.flatten_length_le
  have hk := habs.length_eq
  have hrlt : off % PBS < PBS := Nat.mod_lt _ (by rw [hP4096]; omega)
  obtain ⟨hcflat, hcchunks, hcnil⟩ := chunkData_spec d.length (PBS - off % PBS) d
    (le_refl _) (by omega) (by omega)
  have hwfcs : ∀ c0 ∈ chunkData d.length (PBS - off % PBS) d, wfBytes c0 := by
    intro c0 hc0 b hb
    exact hd b (by rw [← hcflat]; exact List.mem_flatten.2 ⟨c0, hc0, hb⟩)
  have hi0le : off / PBS ≤ ps.length := by
    rw [hP4096] at *
    omega
  have hdropflat := hch.flatten_drop (off / PBS)
  obtain ⟨nb, ps2, heq, habs2, hch2, hfl⟩ :=
    writeChunks_ok key fid rng.nonce hr.2.2 _ _ (hcchunks hne) (off % PBS) (off / PBS)
      (blocks.drop (off / PBS)) (ps.drop (off / PBS))
      (by
        have h2 := habs.drop_abs (off / PBS)
        rwa [Nat.zero_add] at h2)
      (hch.drop_chunked _)
      (by omega)
      (by
        intro hnil
        have h2 := congrArg List.length hnil
        rw [List.length_drop] at h2
        simp only [List.length_nil] at h2
        rw [hP4096] at *
        omega)
      (by
        intro p0 ps0 hps0
        have huc := (hps0 ▸ hch.drop_chunked (off / PBS)).uncons
        rcases Decidable.em (ps0 = []) with he | he
        · have hflat2 : p0.length = ps.flatten.length - off / PBS * PBS := by
            have h3 := congrArg List.length hdropflat
            rw [hps0, he] at h3
            simp only [List.flatten_cons, List.flatten_nil, List.append_nil,
              List.length_drop] at h3
            exact h3
          rw [hflat2, hP4096] at *
          omega
        · have := huc.2.1 he
          rw [hP4096] at *
          omega)
      hwfcs
  have hps2ne : ps2 ≠ [] := by
    intro hc
    have h3 := congrArg List.length hfl
    rw [hc, hcflat] at h3
    simp only [List.flatten_nil, List.length_nil, List.length_append] at h3
    have hdne : 1 ≤ d.length := List.length_pos.2 hne
    omega
  refine ⟨nb, heq, hfid1, hfid2, ps.take (off / PBS) ++ ps2, ?_, ?_, ?_, ?_⟩
  · refine BlocksAbs.append (habs.take_abs _) ?_
    have hlt : (blocks.take (off / PBS)).length = off / PBS := by
      rw [List.length_take]
      omega
    rw [hlt, Nat.zero_add]
    exact habs2
  · refine chunked_append_full ?_ hch2 hps2ne
    rcases Decidable.em (off / PBS < ps.length) with hl | hl
    · exact hch.take_allFull hl
    · have hi0eq : off / PBS = ps.length := by omega
      rw [List.take_of_length_le (by omega)]
      refine hch.allFull_of_flatten ?_
      rw [hP4096] at *
      omega
  · simp [hps2ne]
  · rw [List.flatten_append, hfl, hcflat, hdropflat]
    have hoffsplit : off = off / PBS * PBS + off % PBS := by
      rw [hP4096]
      omega
    conv_lhs => rw [hoffsplit]
    conv_lhs => rw [List.take_add]
    have hdd : off / PBS * PBS + off % PBS + d.length
        = off / PBS * PBS + (off % PBS + d.length) := by omega
    conv_lhs => rw [hdd, ← List.drop_drop]
    rw [hch.flatten_take]
    simp [List.append_assoc]

/-- `write(off, d)` with nonempty data on a well-formed file succeeds
and splices `d` at offset `off` into the (zero-extended) content. -/
theorem writeOp_ok (key : Bytes) (rng : Rng) (st : CtState) (P : Bytes) (off : Nat) (d : Bytes)
    (h : WfState key st P) (hr : goodRng rng) (hd : wfBytes d) (hne : d ≠ []) :
    ∃ st', writeOp key rng st off d = .ok st' ∧ WfState key st' (plainWrite P off d) := by
  have hsz := ctSize_eq h
  have hdpos : 1 ≤ d.length := List.length_pos.2 hne
  by_cases hoff : ctSize st < off
  · -- the file is first grown to length `off`
    obtain ⟨st1, heq1, hwf1⟩ := truncOp_ok key rng st P off h hr
    have hPgeq : plainTrunc P off = P ++ List.replicate (off - P.length) 0 :=
      plainTrunc_of_ge (by omega)
    have hPglen : (plainTrunc P off).length = off := by
      rw [hPgeq]
      simp
      omega
    match st1, heq1, hwf1 with
    | none, heq1, hwf1 =>
      simp only [WfState] at hwf1
      rw [hwf1] at hPglen
      simp at hPglen
      omega
    | some f1, heq1, hwf1 =>
      obtain ⟨hf1, hf2, ps, habs, hch, hnil, hPeq⟩ := hwf1
      obtain ⟨nb, heq2, hwf2⟩ := writeBlocks_ok key rng f1.fid f1.blocks ps off d
        hf1 hf2 habs hch hr hd hne (by rw [← hPeq, hPglen])
      refine ⟨some ⟨f1.fid, f1.blocks.take (off / PBS) ++ nb⟩, ?_, ?_⟩
      · simp only [writeOp, if_neg hne, if_pos hoff, heq1, heq2]
      · have hfin : ps.flatten.take off ++ d ++ ps.flatten.drop (off + d.length)
            = plainWrite P off d := by
          rw [← hPeq, hPgeq]
          unfold plainWrite zpad
          have hlen2 : (P ++ List.replicate (off - P.length) 0).length = off := by
            simp
            omega
          rw [List.drop_of_length_le (by rw [hlen2]; omega),
            List.drop_of_length_le (by omega : P.length ≤ off + d.length)]
        rw [← hfin]
        exact hwf2
  · -- no growth needed
    match st, h, hsz with
    | none, h, hsz =>
      simp only [WfState] at h
      subst h
      have hoff0 : off = 0 := by
        simp only [ctSize] at hoff
        omega
      subst hoff0
      obtain ⟨nb, heq2, hwf2⟩ := writeBlocks_ok key rng rng.fid [] [] 0 d
        hr.1 hr.2.1 (BlocksAbs.nil 0) Chunked.nil hr hd hne (by simp)
      refine ⟨some ⟨rng.fid, List.take (0 / PBS) [] ++ nb⟩, ?_, ?_⟩
      · simp only [writeOp, if_neg hne, if_neg hoff, heq2]
      · have hfin : ([] : Bytes).take 0 ++ d ++ ([] : Bytes).drop (0 + d.length)
            = plainWrite [] 0 d := by
          simp [plainWrite, zpad]
        simp only [List.flatten_nil] at hwf2
        rw [← hfin]
        exact hwf2
    | some f, h, hsz =>
      obtain ⟨hf1, hf2, ps, habs, hch, hnil, hPeq⟩ := h
      obtain ⟨nb, heq2, hwf2⟩ := writeBlocks_ok key rng f.fid f.blocks ps off d
        hf1 hf2 habs hch hr hd hne (by rw [← hPeq]; omega)
      refine ⟨some ⟨f.fid, f.blocks.take (off / PBS) ++ nb⟩, ?_, ?_⟩
      · simp only [writeOp, if_neg hne, if_neg hoff, heq2]
      · have hfin : ps.flatten.take off ++ d ++ ps.flatten.drop (off + d.length)
            = plainWrite P off d := by
          rw [← hPeq]
          unfold plainWrite zpad
          have hoffle : off ≤ P.length := by omega
          rw [Nat.sub_eq_zero_of_le hoffle]
          simp only [List.replicate_zero, List.append_nil]
        rw [← hfin]
        exact hwf2

theorem WfState.wf_content (h : WfState key st P) : wfBytes P := by
  match st with
  | none => simp only [WfState] at h; subst h; intro b hb; cases hb
  | some f =>
    obtain ⟨hf1, hf2, ps, habs, hch, hne, rfl⟩ := h
    intro b hb
    rw [List.mem_flatten] at hb
    obtain ⟨l, hl, hbl⟩ := hb
    exact habs.wf_plains l hl b hbl

/-! ## Concrete fixtures for the test scenarios -/

/-- A fixed 32-byte master key used in concrete scenarios. -/
def key0 : Bytes := List.replicate 32 1

/-- A fixed 16-byte file ID. -/
def fid0 : Bytes := List.replicate 16 2

/-- A fixed randomness source: `fid0` and a constant valid nonce. -/
def rng0 : Rng := ⟨fid0, fun _ => List.replicate 12 3⟩

theorem goodRng_rng0 : goodRng rng0 :=
  ⟨by decide, by decide, fun i => show goodNonce (List.replicate 12 3) from by decide⟩

theorem wfState_none (key : Bytes) : WfState key none [] := rfl

/-! ## MD5 bridging lemmas

The digests printed by the integration tests are reproduced by
evaluating the RFC 1321 compression function on the index function of
the content. -/

theorem MD5.padByte_ext (len : Nat) (f g : Nat → Nat) (h : ∀ i, i < len → f i = g i) :
    MD5.padByte len f = MD5.padByte len g := by
  funext i
  unfold MD5.padByte
  by_cases hi : i < len
  · simp only [hi, if_true, h i hi]
  · simp only [if_neg hi]

theorem md5F_ext (len : Nat) (f g : Nat → Nat) (h : ∀ i, i < len → f i = g i) :
    md5F len f = md5F len g := by
  unfold md5F
  rw [MD5.padByte_ext len f g h]

theorem getD_replicate_lt (a d n i : Nat) (h : i < n) :
    (List.replicate n a).getD i d = a := by
  induction n generalizing i with
  | zero => omega
  | succ n ih =>
    cases i with
    | zero => rfl
    | succ i =>
      rw [List.replicate_succ, List.getD_cons_succ]
      exact ih i (by omega)

theorem md5hex_replicate (a n : Nat) :
    md5hex (List.replicate n a) = md5F n (fun _ => a) := by
  unfold md5hex
  rw [List.length_replicate]
  exact md5F_ext n _ _ (fun i hi => getD_replicate_lt a 0 n i hi)

theorem md5hex_merged_ns :
    md5hex (List.replicate 4080 110 ++ List.replicate 16 115)
      = md5F 4096 (fun i => if i < 4080 then 110 else 115) := by
  unfold md5hex
  rw [List.length_append, List.length_replicate, List.length_replicate]
  refine md5F_ext 4096 _ _ (fun i hi => ?_)
  by_cases h1 : i < 4080
  · have hlen : i < (List.replicate 4080 110).length := by
      rw [List.length_replicate]
      exact h1
    rw [List.getD_append _ _ _ _ hlen, getD_replicate_lt 110 0 4080 i h1, if_pos h1]
  · have hlen : (List.replicate 4080 110).length ≤ i := by
      rw [List.length_replicate]
      omega
    rw [List.getD_append_right _ _ _ _ hlen, List.length_replicate,
      getD_replicate_lt 115 0 16 _ (by omega), if_neg h1]

/-! ## Plaintext-level helper lemmas -/

theorem plainTrunc_length (P : Bytes) (n : Nat) : (plainTrunc P n).length = n := by
  simp [plainTrunc, zpad]
  omega

theorem plainTrunc_replicate_zero (m n : Nat) :
    plainTrunc (List.replicate m 0) n = List.replicate n 0 := by
  unfold plainTrunc zpad
  rw [List.length_replicate, ← List.replicate_add, List.take_replicate]
  congr 1
  omega

theorem plainWrite_length (P : Bytes) (off : Nat) (d : Bytes) :
    (plainWrite P off d).length = max P.length (off + d.length) := by
  unfold plainWrite zpad
  simp
  omega

theorem plainWrite_eq_append (P : Bytes) (d : Bytes) :
    plainWrite P P.length d = P ++ d := by
  unfold plainWrite zpad
  simp

theorem splice_idem (A d B : Bytes) (off : Nat) (hA : A.length = off) :
    plainWrite (A ++ d ++ B) off d = A ++ d ++ B := by
  unfold plainWrite
  have h1 : zpad (A ++ d ++ B) off = A ++ d ++ B := by
    unfold zpad
    rw [Nat.sub_eq_zero_of_le (by simp; omega), List.replicate_zero, List.append_nil]
  have h2 : (A ++ d ++ B).drop (off + d.length) = B :=
    List.drop_left' (by simp [hA])
  have h3 : (A ++ d ++ B).take off = A := by
    rw [List.append_assoc]
    exact List.take_left' hA
  rw [h1, h2, h3]

theorem plainWrite_idem (P : Bytes) (off : Nat) (d : Bytes) :
    plainWrite (plainWrite P off d) off d = plainWrite P off d := by
  have h := splice_idem ((zpad P off).take off) d (P.drop (off + d.length)) off
    (by simp [zpad]; omega)
  exact h

theorem plainWrite_drop_take (P : Bytes) (off : Nat) (d : Bytes) :
    ((plainWrite P off d).drop off).take d.length = d := by
  unfold plainWrite
  have hA : ((zpad P off).take off).length = off := by
    simp [zpad]
    omega
  rw [List.append_assoc, List.drop_left' hA]
  exact List.take_left' rfl

/-! ## Concrete MD5 digests of the test contents -/

theorem md5F_zeros_7000 :
    md5F 7000 (fun _ => 0) = "95d4ec7038e3e4fdbd5f15c34c3f0b34" := by decide

theorem md5F_zeros_6999 :
    md5F 6999 (fun _ => 0) = "35fd15873ec6c35380064a41b9b9683b" := by decide

theorem md5F_zeros_465 :
    md5F 465 (fun _ => 0) = "a1534d6e98a6b21386456a8f66c55260" := by decide

theorem md5F_zeros_4096 :
    md5F 4096 (fun _ => 0) = "620f0b67a91f7f74151bc5be745b7110" := by decide

theorem md5F_n_4096 :
    md5F 4096 (fun _ => 110) = "6c1660fdabccd448d1359f27b3db3c99" := by decide

theorem md5F_merged_ns :
    md5F 4096 (fun i => if i < 4080 then 110 else 115)
      = "da885006a6a284530a427c73ce1e5c32" := by decide

theorem plainTrunc_nil (n : Nat) : plainTrunc ([] : Bytes) n = List.replicate n 0 := by
  unfold plainTrunc zpad
  rw [List.nil_append, List.length_nil, Nat.sub_zero, List.take_replicate]
  congr 1
  omega

theorem plainTrunc_drop_past (P : Bytes) (n off : Nat) (hoff : P.length ≤ off) :
    (plainTrunc P n).drop off = List.replicate (n - off) 0 := by
  unfold plainTrunc zpad
  rw [List.drop_take]
  have hsep : off = P.length + (off - P.length) := by omega
  rw [hsep, List.drop_append, List.drop_replicate, List.take_replicate]
  congr 1
  omega

/-! ## Claim C1: write followed by read -/

/-- C1: after `write(off, d)` with `d ≠ []` on a well-formed file, the
write succeeds, `read(off, |d|)` returns exactly `d`, and the reported
size equals `max(prev_size, off + |d|)`.  The claim's unrestricted
form (any length `s`, including 0) fails: see the counterexample. -/
theorem C1_write_read (key : Bytes) (rng : Rng) (st : CtState) (P : Bytes)
    (off : Nat) (d : Bytes) (h : WfState key st P) (hr : goodRng rng)
    (hd : wfBytes d) (hne : d ≠ []) :
    ∃ st', writeOp key rng st off d = .ok st' ∧
      readOp key st' off d.length = .ok d ∧
      ctSize st' = max (ctSize st) (off + d.length) := by
  obtain ⟨st', heq, hwf⟩ := writeOp_ok key rng st P off d h hr hd hne
  refine ⟨st', heq, ?_, ?_⟩
  · rw [readOp_ok key st' (plainWrite P off d) off d.length hwf, plainWrite_drop_take]
  · rw [ctSize_eq hwf, plainWrite_length, ctSize_eq h]

theorem C1_write_read_witness :
    ∃ st', writeOp key0 rng0 none 0 [7] = .ok st' ∧
      readOp key0 st' 0 (List.length [7]) = .ok [7] ∧
      ctSize st' = max (ctSize none) (0 + List.length [7]) :=
  C1_write_read key0 rng0 none [] 0 [7] (wfState_none key0) goodRng_rng0
    (by decide) (by decide)

/-- C1, counterexample to the unrestricted claim: `write(5, "")` on an
empty file completes as a no-op, and the size stays `0`, not
`max(0, 5 + 0) = 5`. -/
theorem C1_counterexample :
    writeOp key0 rng0 none 5 [] = .ok none ∧
      ctSize none ≠ max (ctSize none) (5 + List.length ([] : Bytes)) :=
  ⟨rfl, by decide⟩

/-! ## Claim C2: truncate -/

/-- C2: `truncate(n)` on a well-formed file succeeds, makes the size
exactly `n`, and reads past the prior end return only zero bytes;
and the concrete chain `truncate 7000; 6999; 465; 4096` from an
empty file produces exactly the four digests of the test. -/
theorem C2_truncate (key : Bytes) (rng : Rng) (st : CtState) (P : Bytes) (n : Nat)
    (h : WfState key st P) (hr : goodRng rng) :
    (∃ st', truncOp key rng st n = .ok st' ∧ ctSize st' = n ∧
      ∀ off len, P.length ≤ off →
        readOp key st' off len = .ok (List.replicate (min len (n - off)) 0)) ∧
    (∃ s1 s2 s3 s4,
      truncOp key0 rng0 none 7000 = .ok s1 ∧ ctSize s1 = 7000 ∧
        (fileContent key0 s1).map md5hex = some "95d4ec7038e3e4fdbd5f15c34c3f0b34" ∧
      truncOp key0 rng0 s1 6999 = .ok s2 ∧ ctSize s2 = 6999 ∧
        (fileContent key0 s2).map md5hex = some "35fd15873ec6c35380064a41b9b9683b" ∧
      truncOp key0 rng0 s2 465 = .ok s3 ∧ ctSize s3 = 465 ∧
        (fileContent key0 s3).map md5hex = some "a1534d6e98a6b21386456a8f66c55260" ∧
      truncOp key0 rng0 s3 4096 = .ok s4 ∧ ctSize s4 = 4096 ∧
        (fileContent key0 s4).map md5hex = some "620f0b67a91f7f74151bc5be745b7110") := by
  constructor
  · obtain ⟨st', heq, hwf⟩ := truncOp_ok key rng st P n h hr
    refine ⟨st', heq, ?_, ?_⟩
    · rw [ctSize_eq hwf, plainTrunc_length]
    · intro off len hoff
      rw [readOp_ok key st' (plainTrunc P n) off len hwf, plainTrunc_drop_past P n off hoff,
        List.take_replicate]
  · obtain ⟨s1, he1, hw1⟩ := truncOp_ok key0 rng0 none [] 7000 (wfState_none key0) goodRng_rng0
    rw [plainTrunc_nil] at hw1
    obtain ⟨s2, he2, hw2⟩ := truncOp_ok key0 rng0 s1 (List.replicate 7000 0) 6999 hw1 goodRng_rng0
    rw [plainTrunc_replicate_zero] at hw2
    obtain ⟨s3, he3, hw3⟩ := truncOp_ok key0 rng0 s2 (List.replicate 6999 0) 465 hw2 goodRng_rng0
    rw [plainTrunc_replicate_zero] at hw3
    obtain ⟨s4, he4, hw4⟩ := truncOp_ok key0 rng0 s3 (List.replicate 465 0) 4096 hw3 goodRng_rng0
    rw [plainTrunc_replicate_zero] at hw4
    refine ⟨s1, s2, s3, s4, he1, ?_, ?_, he2, ?_, ?_, he3, ?_, ?_, he4, ?_, ?_⟩
    · rw [ctSize_eq hw1, List.length_replicate]
    · rw [fileContent_of_wf hw1, Option.map_some', md5hex_replicate, md5F_zeros_7000]
    · rw [ctSize_eq hw2, List.length_replicate]
    · rw [fileContent_of_wf hw2, Option.map_some', md5hex_replicate, md5F_zeros_6999]
    · rw [ctSize_eq hw3, List.length_replicate]
    · rw [fileContent_of_wf hw3, Option.map_some', md5hex_replicate, md5F_zeros_465]
    · rw [ctSize_eq hw4, List.length_replicate]
    · rw [fileContent_of_wf hw4, Option.map_some', md5hex_replicate, md5F_zeros_4096]

theorem C2_truncate_witness :
    (∃ st', truncOp key0 rng0 none 5 = .ok st' ∧ ctSize st' = 5 ∧
      ∀ off len, List.length ([] : Bytes) ≤ off →
        readOp key0 st' off len = .ok (List.replicate (min len (5 - off)) 0)) ∧
    (∃ s1 s2 s3 s4,
      truncOp key0 rng0 none 7000 = .ok s1 ∧ ctSize s1 = 7000 ∧
        (fileContent key0 s1).map md5hex = some "95d4ec7038e3e4fdbd5f15c34c3f0b34" ∧
      truncOp key0 rng0 s1 6999 = .ok s2 ∧ ctSize s2 = 6999 ∧
        (fileContent key0 s2).map md5hex = some "35fd15873ec6c35380064a41b9b9683b" ∧
      truncOp key0 rng0 s2 465 = .ok s3 ∧ ctSize s3 = 465 ∧
        (fileContent key0 s3).map md5hex = some "a1534d6e98a6b21386456a8f66c55260" ∧
      truncOp key0 rng0 s3 4096 = .ok s4 ∧ ctSize s4 = 4096 ∧
        (fileContent key0 s4).map md5hex = some "620f0b67a91f7f74151bc5be745b7110") :=
  C2_truncate key0 rng0 none [] 5 (wfState_none key0) goodRng_rng0

/-! ## Claim C3: append -/

/-- The 17-byte string `"testdata123456789"` of the append test. -/
def apData : Bytes := [116, 101, 115, 116, 100, 97, 116, 97, 49, 50, 51, 52, 53, 54, 55, 56, 57]

/-- `k` successive appends of `d`: each writes `d` at the current size. -/
def appendIter (key : Bytes) (rng : Rng) (d : Bytes) : Nat → CtState → Except Err CtState
  | 0, st => .ok st
  | k + 1, st =>
    match writeOp key rng st (ctSize st) d with
    | .error e => .error e
    | .ok st' => appendIter key rng d k st'

theorem appendIter_ok (key : Bytes) (rng : Rng) (d : Bytes) (hr : goodRng rng)
    (hd : wfBytes d) (hne : d ≠ []) :
    ∀ (k : Nat) (st : CtState) (P : Bytes), WfState key st P →
      ∃ st', appendIter key rng d k st = .ok st' ∧
        WfState key st' (P ++ (List.replicate k d).flatten)
  | 0, st, P, h => ⟨st, rfl, by simpa using h⟩
  | k + 1, st, P, h => by
    obtain ⟨st1, he1, hw1⟩ := writeOp_ok key rng st P (ctSize st) d h hr hd hne
    have hP : plainWrite P (ctSize st) d = P ++ d := by
      rw [ctSize_eq h, plainWrite_eq_append]
    rw [hP] at hw1
    obtain ⟨st', he', hw'⟩ := appendIter_ok key rng d hr hd hne k st1 (P ++ d) hw1
    refine ⟨st', ?_, ?_⟩
    · simp only [appendIter, he1]
      exact he'
    · have hrw : P ++ (List.replicate (k + 1) d).flatten
          = (P ++ d) ++ (List.replicate k d).flatten := by
        rw [List.replicate_succ, List.flatten_cons, List.append_assoc]
      rw [hrw]
      exact hw'

/-- C3: appending `apData` (the test's 17-byte string) `k` times from
an empty file succeeds, and after every step the file content — hence
its digest — equals the in-memory concatenation of `k` copies. -/
theorem C3_append (key : Bytes) (rng : Rng) (hr : goodRng rng) (k : Nat) :
    ∃ st', appendIter key rng apData k none = .ok st' ∧
      (fileContent key st').map md5hex
        = some (md5hex (List.replicate k apData).flatten) := by
  obtain ⟨st', he, hw⟩ :=
    appendIter_ok key rng apData hr (by decide) (by decide) k none [] (wfState_none key)
  refine ⟨st', he, ?_⟩
  rw [fileContent_of_wf hw, List.nil_append, Option.map_some']

theorem C3_append_witness :
    ∃ st', appendIter key0 rng0 apData 2 none = .ok st' ∧
      (fileContent key0 st').map md5hex
        = some (md5hex (List.replicate 2 apData).flatten) :=
  C3_append key0 rng0 goodRng_rng0 2

/-! ## Claim C7: write idempotence -/

/-- C7: performing the same `write(off, d)` twice in a row on a
well-formed file succeeds, and the digest of the full content after
the second write equals the digest after the first. -/
theorem C7_write_idempotent (key : Bytes) (rng : Rng) (st : CtState) (P : Bytes)
    (off : Nat) (d : Bytes) (h : WfState key st P) (hr : goodRng rng) (hd : wfBytes d) :
    ∃ st1 st2, writeOp key rng st off d = .ok st1 ∧
      writeOp key rng st1 off d = .ok st2 ∧
      (fileContent key st2).map md5hex = (fileContent key st1).map md5hex := by
  by_cases hne : d = []
  · subst hne
    exact ⟨st, st, by simp [writeOp], by simp [writeOp], rfl⟩
  · obtain ⟨st1, he1, hw1⟩ := writeOp_ok key rng st P off d h hr hd hne
    obtain ⟨st2, he2, hw2⟩ := writeOp_ok key rng st1 (plainWrite P off d) off d hw1 hr hd hne
    rw [plainWrite_idem] at hw2
    exact ⟨st1, st2, he1, he2, by rw [fileContent_of_wf hw1, fileContent_of_wf hw2]⟩

theorem C7_write_idempotent_witness :
    ∃ st1 st2, writeOp key0 rng0 none 1 [9] = .ok st1 ∧
      writeOp key0 rng0 st1 1 [9] = .ok st2 ∧
      (fileContent key0 st2).map md5hex = (fileContent key0 st1).map md5hex :=
  C7_write_idempotent key0 rng0 none [] 1 [9] (wfState_none key0) goodRng_rng0 (by decide)

/-! ## Claim C4: file holes -/

/-- The 3-byte string `"foo"` of the holes test. -/
def foo : Bytes := [102, 111, 111]

/-- C4: on a fresh file, `write(0, "foo"); write(4096, "foo")`
succeeds, the size is 4099, the full read succeeds and returns the
content, every byte of the gap `[3, 4096)` is zero, and an all-zero
ciphertext block of exactly `CBS` bytes decrypts to `PBS` zero bytes
for every key, file ID and block index — independence from the key
showing the AEAD is not invoked. -/
theorem C4_holes :
    ∃ st1 st2,
      writeOp key0 rng0 none 0 foo = .ok st1 ∧
      writeOp key0 rng0 st1 4096 foo = .ok st2 ∧
      ctSize st2 = 4099 ∧
      readOp key0 st2 0 4099 = .ok (foo ++ List.replicate 4093 0 ++ foo) ∧
      (∀ i, 3 ≤ i → i < 4096 → (foo ++ List.replicate 4093 0 ++ foo).getD i 0 = 0) ∧
      (∀ key fid i, decBlock key fid i holeMarker = some (List.replicate PBS 0)) := by
  obtain ⟨st1, he1, hw1⟩ :=
    writeOp_ok key0 rng0 none [] 0 foo (wfState_none key0) goodRng_rng0 (by decide) (by decide)
  have hP1 : plainWrite [] 0 foo = foo := rfl
  rw [hP1] at hw1
  obtain ⟨st2, he2, hw2⟩ :=
    writeOp_ok key0 rng0 st1 foo 4096 foo hw1 goodRng_rng0 (by decide) (by decide)
  have hfoo : (foo : Bytes).length = 3 := rfl
  have hP2 : plainWrite foo 4096 foo = foo ++ List.replicate 4093 0 ++ foo := by
    unfold plainWrite zpad
    rw [hfoo]
    rw [List.take_of_length_le (by rw [List.length_append, List.length_replicate, hfoo]),
      List.drop_of_length_le (by rw [hfoo]; omega), List.append_nil]
  rw [hP2] at hw2
  have hlen : (foo ++ List.replicate 4093 0 ++ foo).length = 4099 := by
    rw [List.length_append, List.length_append, List.length_replicate, hfoo]
  refine ⟨st1, st2, he1, he2, ?_, ?_, ?_, ?_⟩
  · rw [ctSize_eq hw2, hlen]
  · rw [readOp_ok key0 st2 _ 0 4099 hw2, List.drop_zero,
      List.take_of_length_le (by rw [hlen])]
  · intro i h3 h4096
    have hlen2 : (foo ++ List.replicate 4093 0).length = 4096 := by
      rw [List.length_append, List.length_replicate, hfoo]
    rw [List.getD_append _ _ _ _ (by rw [hlen2]; omega),
      List.getD_append_right _ _ _ _ (by rw [hfoo]; omega), hfoo]
    exact getD_replicate_lt 0 0 4093 (i - 3) (by omega)
  · exact fun key fid i => decBlock_holeMarker key fid i

/-! ## Claim C6: racing writes admit exactly the two serializations -/

theorem wfBytes_replicate (m a : Nat) (h : a < 256) : wfBytes (List.replicate m a) := by
  intro b hb
  rw [List.eq_of_mem_replicate hb]
  exact h

theorem replicate_ne_nil (m a : Nat) (h : 0 < m) : List.replicate m a ≠ [] := by
  intro heq
  have hlen := congrArg List.length heq
  rw [List.length_replicate, List.length_nil] at hlen
  omega

theorem plainWrite_cover (P d : Bytes) (h : P.length ≤ d.length) : plainWrite P 0 d = d := by
  unfold plainWrite zpad
  rw [List.take_zero, List.nil_append, Nat.zero_add, List.drop_of_length_le h, List.append_nil]

theorem plainWrite_tail_4080 (a b : Nat) :
    plainWrite (List.replicate 4096 a) 4080 (List.replicate 16 b)
      = List.replicate 4080 a ++ List.replicate 16 b := by
  unfold plainWrite zpad
  rw [List.length_replicate, Nat.sub_eq_zero_of_le (by omega), List.replicate_zero,
    List.append_nil, List.take_replicate, List.length_replicate,
    List.drop_of_length_le (by rw [List.length_replicate])]
  rw [List.append_nil]
  have hmin : 4080 ⊓ 4096 = 4080 := by omega
  rw [hmin]

/-- C6: starting from a file of 4096 `'o'` bytes, the racing writes of
the test — 4096 `'n'` bytes at offset 0 and 16 `'s'` bytes at offset
4080 — admit exactly two serialization orders; both complete, the
final digest is `da8850…` when the tail write lands last and `6c1660…`
when the full overwrite lands last, and neither order leaves the
pre-overwrite `'o'` content with the `'s'` tail. -/
theorem C6_rmw_race :
    ∃ st0 stA stAB stB stBA,
      writeOp key0 rng0 none 0 (List.replicate 4096 111) = .ok st0 ∧
      writeOp key0 rng0 st0 0 (List.replicate 4096 110) = .ok stA ∧
      writeOp key0 rng0 stA 4080 (List.replicate 16 115) = .ok stAB ∧
      (fileContent key0 stAB).map md5hex = some "da885006a6a284530a427c73ce1e5c32" ∧
      writeOp key0 rng0 st0 4080 (List.replicate 16 115) = .ok stB ∧
      writeOp key0 rng0 stB 0 (List.replicate 4096 110) = .ok stBA ∧
      (fileContent key0 stBA).map md5hex = some "6c1660fdabccd448d1359f27b3db3c99" ∧
      fileContent key0 stAB ≠ some (List.replicate 4080 111 ++ List.replicate 16 115) ∧
      fileContent key0 stBA ≠ some (List.replicate 4080 111 ++ List.replicate 16 115) := by
  obtain ⟨st0, he0, hw0⟩ := writeOp_ok key0 rng0 none [] 0 (List.replicate 4096 111)
    (wfState_none key0) goodRng_rng0 (wfBytes_replicate _ _ (by omega))
    (replicate_ne_nil _ _ (by omega))
  rw [plainWrite_cover _ _ (by rw [List.length_nil]; omega)] at hw0
  obtain ⟨stA, heA, hwA⟩ := writeOp_ok key0 rng0 st0 (List.replicate 4096 111) 0
    (List.replicate 4096 110) hw0 goodRng_rng0 (wfBytes_replicate _ _ (by omega))
    (replicate_ne_nil _ _ (by omega))
  rw [plainWrite_cover _ _ (by rw [List.length_replicate, List.length_replicate])] at hwA
  obtain ⟨stAB, heAB, hwAB⟩ := writeOp_ok key0 rng0 stA (List.replicate 4096 110) 4080
    (List.replicate 16 115) hwA goodRng_rng0 (wfBytes_replicate _ _ (by omega))
    (replicate_ne_nil _ _ (by omega))
  rw [plainWrite_tail_4080] at hwAB
  obtain ⟨stB, heB, hwB⟩ := writeOp_ok key0 rng0 st0 (List.replicate 4096 111) 4080
    (List.replicate 16 115) hw0 goodRng_rng0 (wfBytes_replicate _ _ (by omega))
    (replicate_ne_nil _ _ (by omega))
  rw [plainWrite_tail_4080] at hwB
  obtain ⟨stBA, heBA, hwBA⟩ := writeOp_ok key0 rng0 stB
    (List.replicate 4080 111 ++ List.replicate 16 115) 0
    (List.replicate 4096 110) hwB goodRng_rng0 (wfBytes_replicate _ _ (by omega))
    (replicate_ne_nil _ _ (by omega))
  rw [plainWrite_cover _ _ (by
    rw [List.length_append, List.length_replicate, List.length_replicate,
      List.length_replicate])] at hwBA
  refine ⟨st0, stA, stAB, stB, stBA, he0, heA, heAB, ?_, heB, heBA, ?_, ?_, ?_⟩
  · rw [fileContent_of_wf hwAB, Option.map_some', md5hex_merged_ns, md5F_merged_ns]
  · rw [fileContent_of_wf hwBA, Option.map_some', md5hex_replicate, md5F_n_4096]
  · rw [fileContent_of_wf hwAB]
    intro h
    have hl := Option.some.inj h
    have h0 : (List.replicate 4080 110 ++ List.replicate 16 115).getD 0 0
        = (List.replicate 4080 111 ++ List.replicate 16 115).getD 0 0 := by rw [hl]
    rw [List.getD_append _ _ _ _ (by rw [List.length_replicate]; omega),
      List.getD_append _ _ _ _ (by rw [List.length_replicate]; omega),
      getD_replicate_lt 110 0 4080 0 (by omega),
      getD_replicate_lt 111 0 4080 0 (by omega)] at h0
    omega
  · rw [fileContent_of_wf hwBA]
    intro h
    have hl := Option.some.inj h
    have h0 : (List.replicate 4096 110).getD 0 0
        = (List.replicate 4080 111 ++ List.replicate 16 115).getD 0 0 := by rw [hl]
    rw [List.getD_append _ _ _ _ (by rw [List.length_replicate]; omega),
      getD_replicate_lt 110 0 4096 0 (by omega),
      getD_replicate_lt 111 0 4080 0 (by omega)] at h0
    omega

/-! ## Claim C5: generic list lemmas for the tampering argument -/

theorem getD_set_self {α : Type} (l : List α) (t : Nat) (b d : α) (h : t < l.length) :
    (l.set t b).getD t d = b := by
  rw [List.getD_eq_getElem?_getD, List.getElem?_set_self h, Option.getD_some]

theorem getD_set_ne {α : Type} (l : List α) (t u : Nat) (b d : α) (h : t ≠ u) :
    (l.set t b).getD u d = l.getD u d := by
  rw [List.getD_eq_getElem?_getD, List.getElem?_set_ne h, ← List.getD_eq_getElem?_getD]

theorem getD_drop {α : Type} (l : List α) (m n : Nat) (d : α) :
    (l.drop m).getD n d = l.getD (m + n) d := by
  rw [List.getD_eq_getElem?_getD, List.getElem?_drop, ← List.getD_eq_getElem?_getD]

theorem getD_take {α : Type} (l : List α) (k n : Nat) (d : α) (h : n < k) :
    (l.take k).getD n d = l.getD n d := by
  rw [List.getD_eq_getElem?_getD, List.getElem?_take, if_pos h, ← List.getD_eq_getElem?_getD]

theorem sum_set_getD (l : List Nat) (t b : Nat) (h : t < l.length) :
    (l.set t b).sum + l.getD t 0 = l.sum + b := by
  induction l generalizing t with
  | nil => simp at h
  | cons x xs ih =>
    cases t with
    | zero =>
      rw [List.set_cons_zero, List.getD_cons_zero, List.sum_cons, List.sum_cons]
      omega
    | succ t =>
      rw [List.set_cons_succ, List.getD_cons_succ, List.sum_cons, List.sum_cons]
      have hh := ih t (by simp at h; omega)
      omega

theorem set_append_left {α : Type} (l1 l2 : List α) (n : Nat) (a : α) (h : n < l1.length) :
    (l1 ++ l2).set n a = l1.set n a ++ l2 := by
  rw [List.set_append, if_pos h]

theorem set_append_right {α : Type} (l1 l2 : List α) (n : Nat) (a : α) (h : l1.length ≤ n) :
    (l1 ++ l2).set n a = l1 ++ l2.set (n - l1.length) a := by
  rw [List.set_append, if_neg (by omega)]

theorem set_getD_self_nat (l : List Nat) (j : Nat) :
    l.set j (l.getD j 0) = l := by
  induction l generalizing j with
  | nil => rfl
  | cons x xs ih =>
    cases j with
    | zero => rw [List.getD_cons_zero, List.set_cons_zero]
    | succ j => rw [List.getD_cons_succ, List.set_cons_succ, ih]

theorem wfBytes_getD (l : Bytes) (h : wfBytes l) (t : Nat) (ht : t < l.length) :
    l.getD t 0 < 256 := by
  induction l generalizing t with
  | nil => simp at ht
  | cons x xs ih =>
    cases t with
    | zero =>
      rw [List.getD_cons_zero]
      exact h x (List.mem_cons_self x xs)
    | succ t =>
      rw [List.getD_cons_succ]
      exact ih (fun b hb => h b (List.mem_cons_of_mem x hb)) t (by simp at ht; omega)

theorem tag16_getD_zero (key ad nonce ct : Bytes) :
    (tag16 key ad nonce ct).getD 0 0 = (key.sum + ad.sum + nonce.sum + ct.sum) % 256 :=
  List.getD_cons_zero

theorem tag16_getD_one (key ad nonce ct : Bytes) (q : Nat) (h1 : 1 ≤ q) (h2 : q < 16) :
    (tag16 key ad nonce ct).getD q 0 = 1 := by
  unfold tag16
  have hq : q = (q - 1) + 1 := by omega
  rw [hq, List.getD_cons_succ]
  have hT : tagLen = 16 := rfl
  exact getD_replicate_lt 1 0 (tagLen - 1) (q - 1) (by omega)

theorem encBlock_getD_trailing (key fid : Bytes) (i : Nat) (nonce p : Bytes) (u : Nat)
    (hu1 : nonce.length + p.length + 1 ≤ u) (hu2 : u < nonce.length + p.length + 16) :
    (encBlock key fid i nonce p).getD u 0 = 1 := by
  unfold encBlock
  rw [List.getD_append_right _ _ _ _ (by rw [List.length_append]; omega)]
  rw [List.length_append]
  exact tag16_getD_one _ _ _ _ _ (by omega) (by omega)

/-- Any single-byte modification of a stored ciphertext block makes
decryption fail: the modified block is neither the hole marker nor a
block whose tag verifies. -/
theorem BlockAbs.decBlock_set_ne (h : BlockAbs key fid i c p) (t b2 : Nat)
    (ht : t < c.length) (hb : b2 < 256) (hne : b2 ≠ c.getD t 0) :
    decBlock key fid i (c.set t b2) = none := by
  have hC : CBS = 4124 := rfl
  have hT : tagLen = 16 := rfl
  have hN : nonceLen = 12 := rfl
  have hO : blockOverhead = 28 := rfl
  cases h with
  | hole =>
    have htC : t < CBS := by rw [← holeMarker_length]; exact ht
    have hold : holeMarker.getD t 0 = 0 := getD_holeMarker t 0 htC
    rw [hold] at hne
    have hlen2 : (holeMarker.set t b2).length = CBS := by
      rw [List.length_set, holeMarker_length]
    have h1 : holeMarker.set t b2 ≠ holeMarker := by
      intro heq
      have hx : (holeMarker.set t b2).getD t 0 = b2 := getD_set_self _ _ _ _ ht
      rw [heq, hold] at hx
      exact hne hx.symm
    have h2 : ¬((holeMarker.set t b2).length < blockOverhead) := by
      rw [hlen2]
      omega
    obtain ⟨q, hq1, hq2, hq3⟩ : ∃ q, CBS - 15 ≤ q ∧ q < CBS ∧ q ≠ t := by
      by_cases htq : t = CBS - 15
      · exact ⟨CBS - 14, by omega, by omega, by omega⟩
      · exact ⟨CBS - 15, by omega, by omega, fun hh => htq hh.symm⟩
    have h3 : ¬((holeMarker.set t b2).drop ((holeMarker.set t b2).length - tagLen)
        = tag16 key (adBytes fid i) ((holeMarker.set t b2).take nonceLen)
          (((holeMarker.set t b2).drop nonceLen).take
            ((holeMarker.set t b2).length - nonceLen - tagLen))) := by
      intro heq
      have hsg : ((holeMarker.set t b2).drop ((holeMarker.set t b2).length - tagLen)).getD
          (q - (CBS - 16)) 0 = 0 := by
        rw [hlen2, getD_drop]
        have hidx : CBS - tagLen + (q - (CBS - 16)) = q := by omega
        rw [hidx, getD_set_ne _ _ _ _ _ (fun hh => hq3 hh.symm), getD_holeMarker q 0 hq2]
      rw [heq, tag16_getD_one _ _ _ _ _ (by omega) (by omega)] at hsg
      omega
    unfold decBlock
    rw [if_neg h1, if_neg h2, if_neg h3]
  | enc nonce _ hn hw hp =>
    have hn12 : nonce.length = 12 := by rw [hn.1, hN]
    have hlenc : (encBlock key fid i nonce p).length = p.length + 28 := by
      rw [encBlock_length key fid i nonce p hn.1, hO]
    have hlen2 : ((encBlock key fid i nonce p).set t b2).length = p.length + 28 := by
      rw [List.length_set, hlenc]
    obtain ⟨q, hq1, hq2, hq3⟩ : ∃ q, nonce.length + p.length + 1 ≤ q ∧
        q < (encBlock key fid i nonce p).length ∧ q ≠ t := by
      by_cases htq : t = (encBlock key fid i nonce p).length - 1
      · exact ⟨(encBlock key fid i nonce p).length - 2, by omega, by omega, by omega⟩
      · exact ⟨(encBlock key fid i nonce p).length - 1, by omega, by omega,
          fun hh => htq hh.symm⟩
    have hc1 : (encBlock key fid i nonce p).getD q 0 = 1 :=
      encBlock_getD_trailing key fid i nonce p q hq1 (by omega)
    have h1 : (encBlock key fid i nonce p).set t b2 ≠ holeMarker := by
      intro heq
      have hx : ((encBlock key fid i nonce p).set t b2).getD q 0 = 1 := by
        rw [getD_set_ne _ _ _ _ _ (fun hh => hq3 hh.symm)]
        exact hc1
      have hql : q < CBS := by
        have hlh := congrArg List.length heq
        rw [List.length_set, holeMarker_length] at hlh
        omega
      rw [heq, getD_holeMarker q 0 hql] at hx
      omega
    have h2 : ¬(((encBlock key fid i nonce p).set t b2).length < blockOverhead) := by
      rw [hlen2]
      omega
    by_cases htt : nonce.length + p.length ≤ t
    · have hc2eq : (encBlock key fid i nonce p).set t b2
          = (nonce ++ p) ++ (tag16 key (adBytes fid i) nonce p).set
              (t - (nonce.length + p.length)) b2 := by
        show (nonce ++ p ++ tag16 key (adBytes fid i) nonce p).set t b2 = _
        rw [set_append_right _ _ _ _ (by rw [List.length_append]; omega), List.length_append]
      have hcnt : ((encBlock key fid i nonce p).set t b2).length - tagLen
          = (nonce ++ p).length := by
        rw [hlen2, List.length_append]
        omega
      have hstored : ((encBlock key fid i nonce p).set t b2).drop
          (((encBlock key fid i nonce p).set t b2).length - tagLen)
          = (tag16 key (adBytes fid i) nonce p).set (t - (nonce.length + p.length)) b2 := by
        rw [hcnt, hc2eq, List.drop_left' rfl]
      have hnonce2 : ((encBlock key fid i nonce p).set t b2).take nonceLen = nonce := by
        rw [hc2eq, List.append_assoc]
        exact List.take_left' hn.1
      have hcnt2 : ((encBlock key fid i nonce p).set t b2).length - nonceLen - tagLen
          = p.length := by
        rw [hlen2, hN, hT]
        omega
      have hct2 : (((encBlock key fid i nonce p).set t b2).drop nonceLen).take
          (((encBlock key fid i nonce p).set t b2).length - nonceLen - tagLen) = p := by
        rw [hcnt2, hc2eq, List.append_assoc, List.drop_left' hn.1, List.take_left' rfl]
      have hold : (encBlock key fid i nonce p).getD t 0
          = (tag16 key (adBytes fid i) nonce p).getD (t - (nonce.length + p.length)) 0 := by
        show (nonce ++ p ++ tag16 key (adBytes fid i) nonce p).getD t 0 = _
        rw [List.getD_append_right _ _ _ _ (by rw [List.length_append]; omega),
          List.length_append]
      have h3 : ¬(((encBlock key fid i nonce p).set t b2).drop
          (((encBlock key fid i nonce p).set t b2).length - tagLen)
        = tag16 key (adBytes fid i) (((encBlock key fid i nonce p).set t b2).take nonceLen)
            ((((encBlock key fid i nonce p).set t b2).drop nonceLen).take
              (((encBlock key fid i nonce p).set t b2).length - nonceLen - tagLen))) := by
        intro heq
        rw [hstored, hnonce2, hct2] at heq
        have hx : ((tag16 key (adBytes fid i) nonce p).set
            (t - (nonce.length + p.length)) b2).getD (t - (nonce.length + p.length)) 0 = b2 :=
          getD_set_self _ _ _ _ (by rw [tag16_length]; omega)
        rw [heq] at hx
        rw [← hold] at hx
        exact hne hx.symm
      unfold decBlock
      rw [if_neg h1, if_neg h2, if_neg h3]
    · have hc2eq : (encBlock key fid i nonce p).set t b2
          = (nonce ++ p).set t b2 ++ tag16 key (adBytes fid i) nonce p := by
        show (nonce ++ p ++ tag16 key (adBytes fid i) nonce p).set t b2 = _
        rw [set_append_left _ _ _ _ (by rw [List.length_append]; omega)]
      have hnplen : ((nonce ++ p).set t b2).length = nonce.length + p.length := by
        rw [List.length_set, List.length_append]
      have hcnt : ((encBlock key fid i nonce p).set t b2).length - tagLen
          = ((nonce ++ p).set t b2).length := by
        rw [hlen2, hnplen]
        omega
      have hstored : ((encBlock key fid i nonce p).set t b2).drop
          (((encBlock key fid i nonce p).set t b2).length - tagLen)
          = tag16 key (adBytes fid i) nonce p := by
        rw [hcnt, hc2eq, List.drop_left' rfl]
      have hnonce2 : ((encBlock key fid i nonce p).set t b2).take nonceLen
          = ((nonce ++ p).set t b2).take 12 := by
        rw [hc2eq, List.take_append_of_le_length (by rw [hnplen, hN]; omega), hN]
      have hcnt2 : ((encBlock key fid i nonce p).set t b2).length - nonceLen - tagLen
          = p.length := by
        rw [hlen2, hN, hT]
        omega
      have hdrop12 : ((encBlock key fid i nonce p).set t b2).drop nonceLen
          = ((nonce ++ p).set t b2).drop 12 ++ tag16 key (adBytes fid i) nonce p := by
        rw [hc2eq, List.drop_append_of_le_length (by rw [hnplen, hN]; omega), hN]
      have hct2 : (((encBlock key fid i nonce p).set t b2).drop nonceLen).take
          (((encBlock key fid i nonce p).set t b2).length - nonceLen - tagLen)
          = ((nonce ++ p).set t b2).drop 12 := by
        rw [hcnt2, hdrop12]
        refine List.take_left' ?_
        rw [List.length_drop, hnplen]
        omega
      have hold : (encBlock key fid i nonce p).getD t 0 = (nonce ++ p).getD t 0 := by
        show (nonce ++ p ++ tag16 key (adBytes fid i) nonce p).getD t 0 = _
        rw [List.getD_append _ _ _ _ (by rw [List.length_append]; omega)]
      rw [hold] at hne
      have hold256 : (nonce ++ p).getD t 0 < 256 :=
        wfBytes_getD _ (wfBytes_append hn.2 hw) t (by rw [List.length_append]; omega)
      have h3 : ¬(((encBlock key fid i nonce p).set t b2).drop
          (((encBlock key fid i nonce p).set t b2).length - tagLen)
        = tag16 key (adBytes fid i) (((encBlock key fid i nonce p).set t b2).take nonceLen)
            ((((encBlock key fid i nonce p).set t b2).drop nonceLen).take
              (((encBlock key fid i nonce p).set t b2).length - nonceLen - tagLen))) := by
        intro heq
        rw [hstored, hnonce2, hct2] at heq
        have hx : (tag16 key (adBytes fid i) nonce p).getD 0 0
            = (tag16 key (adBytes fid i) (((nonce ++ p).set t b2).take 12)
                (((nonce ++ p).set t b2).drop 12)).getD 0 0 := by rw [heq]
        rw [tag16_getD_zero, tag16_getD_zero] at hx
        have hs1 : (((nonce ++ p).set t b2).take 12).sum
            + (((nonce ++ p).set t b2).drop 12).sum = ((nonce ++ p).set t b2).sum :=
          List.sum_take_add_sum_drop _ 12
        have hs2 : ((nonce ++ p).set t b2).sum + (nonce ++ p).getD t 0
            = (nonce ++ p).sum + b2 :=
          sum_set_getD _ _ _ (by rw [List.length_append]; omega)
        have hs3 : (nonce ++ p).sum = nonce.sum + p.sum := List.sum_append
        omega
      unfold decBlock
      rw [if_neg h1, if_neg h2, if_neg h3]

theorem BlocksAbs.get_abs (h : BlocksAbs key fid i cs ps) :
    ∀ m, m < cs.length → BlockAbs key fid (i + m) (cs.getD m []) (ps.getD m []) := by
  induction h with
  | nil i =>
    intro m hm
    simp at hm
  | cons i c p cs ps hb hrest ih =>
    intro m hm
    cases m with
    | zero =>
      rw [List.getD_cons_zero, List.getD_cons_zero, Nat.add_zero]
      exact hb
    | succ m =>
      rw [List.getD_cons_succ, List.getD_cons_succ]
      have hh := ih m (by simp at hm; omega)
      have hidx : i + (m + 1) = i + 1 + m := by omega
      rw [hidx]
      exact hh

theorem decBlocksL_none_of_bad (key fid : Bytes) :
    ∀ (cs : List Bytes) (i m : Nat), m < cs.length →
      decBlock key fid (i + m) (cs.getD m []) = none →
      decBlocksL key fid i cs = none
  | [], i, m, hm, _ => by simp at hm
  | c :: cs, i, m, hm, hbad => by
    cases m with
    | zero =>
      rw [List.getD_cons_zero, Nat.add_zero] at hbad
      unfold decBlocksL
      rw [hbad]
      rfl
    | succ m =>
      rw [List.getD_cons_succ] at hbad
      have hidx : i + 1 + m = i + (m + 1) := by omega
      have hrec := decBlocksL_none_of_bad key fid cs (i + 1) m (by simp at hm; omega)
        (by rw [hidx]; exact hbad)
      unfold decBlocksL
      cases hdc : decBlock key fid i c with
      | none => rfl
      | some p =>
        rw [hrec]
        rfl

theorem getD_map_length (l : List Bytes) (j : Nat) (hj : j < l.length) :
    (l.map List.length).getD j 0 = (l.getD j []).length := by
  induction l generalizing j with
  | nil => simp at hj
  | cons x xs ih =>
    cases j with
    | zero => rw [List.map_cons, List.getD_cons_zero, List.getD_cons_zero]
    | succ j =>
      rw [List.map_cons, List.getD_cons_succ, List.getD_cons_succ]
      exact ih j (by simp at hj; omega)

theorem ctSize_set (f : EncFile) (j : Nat) (x : Bytes) (hj : j < f.blocks.length)
    (hx : x.length = (f.blocks.getD j []).length) :
    ctSize (some ⟨f.fid, f.blocks.set j x⟩) = ctSize (some f) := by
  have hs := sum_set_getD (f.blocks.map List.length) j x.length
    (by rw [List.length_map]; exact hj)
  rw [getD_map_length f.blocks j hj] at hs
  show ((f.blocks.set j x).map List.length).sum - (f.blocks.set j x).length * blockOverhead
    = (f.blocks.map List.length).sum - f.blocks.length * blockOverhead
  rw [List.map_set, List.length_set]
  omega

/-- C5: flipping any single byte of any stored ciphertext block makes
every read whose covered block range includes that block fail with
`AuthenticationFailure`; in particular no (partial) plaintext of the
affected block is ever returned. -/
theorem C5_tamper (key : Bytes) (f : EncFile) (P : Bytes) (j t b2 : Nat)
    (h : WfState key (some f) P) (hj : j < f.blocks.length)
    (ht : t < (f.blocks.getD j []).length) (hb : b2 < 256)
    (hne : b2 ≠ (f.blocks.getD j []).getD t 0) (off len : Nat)
    (hoff : off < min (off + len) P.length)
    (hjlo : off / PBS ≤ j) (hjhi : j ≤ (min (off + len) P.length - 1) / PBS) :
    readOp key (some ⟨f.fid, f.blocks.set j ((f.blocks.getD j []).set t b2)⟩) off len
      = .error .AuthenticationFailure := by
  have hsz2 : ctSize (some ⟨f.fid, f.blocks.set j ((f.blocks.getD j []).set t b2)⟩)
      = P.length := by
    rw [ctSize_set f j _ hj (List.length_set _ _ _), ctSize_eq h]
  obtain ⟨hf1, hf2, ps, habs, hch, hnil, hPeq⟩ := h
  have habsj := habs.get_abs j hj
  rw [Nat.zero_add] at habsj
  have hbad : decBlock key f.fid j ((f.blocks.getD j []).set t b2) = none :=
    habsj.decBlock_set_ne t b2 ht hb hne
  have hlenb2 : (f.blocks.set j ((f.blocks.getD j []).set t b2)).length
      = f.blocks.length := List.length_set _ _ _
  have hwindow : decBlocksL key f.fid (off / PBS)
      (((f.blocks.set j ((f.blocks.getD j []).set t b2)).drop (off / PBS)).take
        ((min (off + len) P.length - 1) / PBS - off / PBS + 1)) = none := by
    apply decBlocksL_none_of_bad key f.fid _ (off / PBS) (j - off / PBS)
    · rw [List.length_take, List.length_drop, hlenb2, Nat.lt_min]
      exact ⟨by omega, by omega⟩
    · rw [getD_take _ _ _ _ (by omega), getD_drop]
      have hidx : off / PBS + (j - off / PBS) = j := by omega
      rw [hidx, getD_set_self _ _ _ _ hj]
      exact hbad
  have hcond : ¬(min (off + len) P.length ≤ off) := by omega
  simp only [readOp]
  rw [hsz2, if_neg hcond, hwindow]

theorem wfState_demo :
    WfState key0 (some (EncFile.mk fid0 [encBlock key0 fid0 0 (List.replicate 12 3) [5]]))
      [5] :=
  ⟨by decide, by decide, [[5]],
    BlocksAbs.cons 0 _ _ [] []
      (BlockAbs.enc (List.replicate 12 3) [5] (by decide) (by decide) (by decide))
      (BlocksAbs.nil 1),
    Chunked.single [5] (by decide) (by decide), by decide, rfl⟩

theorem C5_tamper_witness :
    readOp key0 (some ⟨fid0, [encBlock key0 fid0 0 (List.replicate 12 3) [5]].set 0
      (([encBlock key0 fid0 0 (List.replicate 12 3) [5]].getD 0 []).set 0 4)⟩) 0 1
      = .error .AuthenticationFailure :=
  C5_tamper key0 ⟨fid0, [encBlock key0 fid0 0 (List.replicate 12 3) [5]]⟩ [5] 0 0 4
    wfState_demo (by decide) (by decide) (by decide) (by decide) 0 1 (by decide)
    (by decide) (by decide)

/-! ## Claim C8: reserved name and filename encryption (spec §4.3)

Modelled from the spec: the name-transform and path-filter code is
not among the sources at hand (only its integration tests are).  In
plaintext-names mode names are stored as given and the basename that
collides with the config file is reserved; otherwise a name is stored
as the unpadded URL-safe base64 of the CBC encryption of the
PKCS#7-padded name. -/

inductive NameMode where
  | plaintext
  | encrypted
  deriving DecidableEq

inductive FsErr where
  | NameReserved
  deriving DecidableEq

/-- The reserved basename in plaintext-names mode. -/
def reservedName : String := "gocryptfs.conf"

/-- Modelled from the spec: PKCS#7 padding to 16-byte blocks; always
adds between 1 and 16 bytes of padding. -/
def pkcs7 (b : Bytes) : Bytes :=
  b ++ List.replicate (16 - b.length % 16) (16 - b.length % 16)

/-- Modelled from the spec: a length-preserving keyed chaining cipher
standing in for CBC-AES of the padded name (the AES core is not among
the sources at hand). -/
def cbcEnc (key : Bytes) : Nat → Bytes → Bytes
  | _, [] => []
  | prev, b :: bs =>
    ((b + prev + key.getD 0 0 + 1) % 256) ::
      cbcEnc key ((b + prev + key.getD 0 0 + 1) % 256) bs

def b64Char (n : Nat) : Char :=
  if n < 26 then Char.ofNat (65 + n)
  else if n < 52 then Char.ofNat (97 + (n - 26))
  else if n < 62 then Char.ofNat (48 + (n - 52))
  else if n = 62 then Char.ofNat 45
  else Char.ofNat 95

/-- Unpadded URL-safe base64 (spec §4.3). -/
def b64Enc : Bytes → List Char
  | [] => []
  | [a] => [b64Char (a / 4), b64Char (a % 4 * 16)]
  | [a, b] => [b64Char (a / 4), b64Char (a % 4 * 16 + b / 16), b64Char (b % 16 * 4)]
  | a :: b :: c :: rest =>
    b64Char (a / 4) :: b64Char (a % 4 * 16 + b / 16) :: b64Char (b % 16 * 4 + c / 64)
      :: b64Char (c % 64) :: b64Enc rest

def strBytes (s : String) : Bytes := s.data.map Char.toNat

/-- Modelled from the spec: the stored (ciphertext) name of a
plaintext name under filename encryption. -/
def encryptName (key : Bytes) (iv : Nat) (name : String) : String :=
  String.mk (b64Enc (cbcEnc key iv (pkcs7 (strBytes name))))

/-- The backing name of a file in either mode. -/
def backingName (mode : NameMode) (key : Bytes) (iv : Nat) (name : String) : String :=
  match mode with
  | .plaintext => name
  | .encrypted => encryptName key iv name

/-- Modelled from the spec: `create` in the plaintext view; in
plaintext-names mode the reserved basename is rejected. -/
def createOp (mode : NameMode) (names : List String) (name : String) :
    Except FsErr (List String) :=
  if mode = .plaintext ∧ name = reservedName then .error .NameReserved
  else .ok (name :: names)

/-- Modelled from the spec: `mkdir`, with the same reservation. -/
def mkdirOp (mode : NameMode) (names : List String) (name : String) :
    Except FsErr (List String) :=
  if mode = .plaintext ∧ name = reservedName then .error .NameReserved
  else .ok (name :: names)

/-- Modelled from the spec: `rename`; the reservation applies to the
target name. -/
def renameOp (mode : NameMode) (names : List String) (src dst : String) :
    Except FsErr (List String) :=
  if mode = .plaintext ∧ dst = reservedName then .error .NameReserved
  else .ok (dst :: names.filter (fun n => !(n == src)))

/-- Modelled from the spec: `unlink`; the reserved name cannot be
unlinked either. -/
def unlinkOp (mode : NameMode) (names : List String) (name : String) :
    Except FsErr (List String) :=
  if mode = .plaintext ∧ name = reservedName then .error .NameReserved
  else .ok (names.filter (fun n => !(n == name)))

theorem cbcEnc_length (key : Bytes) : ∀ (prev : Nat) (b : Bytes),
    (cbcEnc key prev b).length = b.length
  | _, [] => rfl
  | prev, b :: bs => by
    unfold cbcEnc
    rw [List.length_cons, List.length_cons, cbcEnc_length key _ bs]

theorem b64Enc_length_ge : ∀ (b : Bytes), b.length ≤ (b64Enc b).length
  | [] => by
    simp only [b64Enc, List.length_nil]
    omega
  | [a] => by
    simp only [b64Enc, List.length_cons, List.length_nil]
    omega
  | [a, b] => by
    simp only [b64Enc, List.length_cons, List.length_nil]
    omega
  | a :: b :: c :: rest => by
    have ih := b64Enc_length_ge rest
    simp only [b64Enc, List.length_cons]
    omega

theorem pkcs7_length_gt (b : Bytes) : b.length < (pkcs7 b).length := by
  unfold pkcs7
  rw [List.length_append, List.length_replicate]
  have hm : b.length % 16 < 16 := Nat.mod_lt _ (by omega)
  omega

theorem encryptName_length_gt (key : Bytes) (iv : Nat) (name : String) :
    name.length < (encryptName key iv name).length := by
  unfold encryptName
  have h4 : (String.mk (b64Enc (cbcEnc key iv (pkcs7 (strBytes name))))).length
      = (b64Enc (cbcEnc key iv (pkcs7 (strBytes name)))).length := rfl
  rw [h4]
  have h1 := b64Enc_length_ge (cbcEnc key iv (pkcs7 (strBytes name)))
  rw [cbcEnc_length] at h1
  have h2 := pkcs7_length_gt (strBytes name)
  have h3 : (strBytes name).length = name.length := by
    unfold strBytes
    rw [List.length_map]
    rfl
  omega

theorem encryptName_ne (key : Bytes) (iv : Nat) (name : String) :
    encryptName key iv name ≠ name := by
  intro heq
  have hlt := encryptName_length_gt key iv name
  rw [heq] at hlt
  omega

/-- C8: in plaintext-names mode, `create`, `mkdir`, `rename`-target
and `unlink` on the reserved basename fail with `NameReserved`, and
the reserved basename never appears in the plaintext view; in
encrypted-names mode, every name — the reserved literal included — is
creatable and its backing name differs from the plaintext name. -/
theorem C8_reserved_names (names : List String) (name src dst : String) (key : Bytes)
    (iv : Nat) (hres : reservedName ∉ names) :
    createOp .plaintext names reservedName = .error .NameReserved ∧
    mkdirOp .plaintext names reservedName = .error .NameReserved ∧
    renameOp .plaintext names src reservedName = .error .NameReserved ∧
    unlinkOp .plaintext names reservedName = .error .NameReserved ∧
    (∀ names2, createOp .plaintext names name = .ok names2 → reservedName ∉ names2) ∧
    (∀ names2, mkdirOp .plaintext names name = .ok names2 → reservedName ∉ names2) ∧
    (∀ names2, renameOp .plaintext names src dst = .ok names2 → reservedName ∉ names2) ∧
    (∀ names2, unlinkOp .plaintext names name = .ok names2 → reservedName ∉ names2) ∧
    createOp .encrypted names name = .ok (name :: names) ∧
    createOp .encrypted names reservedName = .ok (reservedName :: names) ∧
    backingName .encrypted key iv name ≠ name := by
  refine ⟨?_, ?_, ?_, ?_, ?_, ?_, ?_, ?_, ?_, ?_, ?_⟩
  · unfold createOp
    rw [if_pos ⟨rfl, rfl⟩]
  · unfold mkdirOp
    rw [if_pos ⟨rfl, rfl⟩]
  · unfold renameOp
    rw [if_pos ⟨rfl, rfl⟩]
  · unfold unlinkOp
    rw [if_pos ⟨rfl, rfl⟩]
  · intro names2 hok
    unfold createOp at hok
    by_cases hc : name = reservedName
    · rw [if_pos ⟨rfl, hc⟩] at hok
      cases hok
    · rw [if_neg (fun hh => hc hh.2)] at hok
      have hinj := Except.ok.inj hok
      intro hmem
      rw [← hinj] at hmem
      rcases List.mem_cons.1 hmem with h1 | h2
      · exact hc h1.symm
      · exact hres h2
  · intro names2 hok
    unfold mkdirOp at hok
    by_cases hc : name = reservedName
    · rw [if_pos ⟨rfl, hc⟩] at hok
      cases hok
    · rw [if_neg (fun hh => hc hh.2)] at hok
      have hinj := Except.ok.inj hok
      intro hmem
      rw [← hinj] at hmem
      rcases List.mem_cons.1 hmem with h1 | h2
      · exact hc h1.symm
      · exact hres h2
  · intro names2 hok
    unfold renameOp at hok
    by_cases hc : dst = reservedName
    · rw [if_pos ⟨rfl, hc⟩] at hok
      cases hok
    · rw [if_neg (fun hh => hc hh.2)] at hok
      have hinj := Except.ok.inj hok
      intro hmem
      rw [← hinj] at hmem
      rcases List.mem_cons.1 hmem with h1 | h2
      · exact hc h1.symm
      · exact hres (List.mem_of_mem_filter h2)
  · intro names2 hok
    unfold unlinkOp at hok
    by_cases hc : name = reservedName
    · rw [if_pos ⟨rfl, hc⟩] at hok
      cases hok
    · rw [if_neg (fun hh => hc hh.2)] at hok
      have hinj := Except.ok.inj hok
      intro hmem
      rw [← hinj] at hmem
      exact hres (List.mem_of_mem_filter hmem)
  · unfold createOp
    rw [if_neg (fun hh => by cases hh.1)]
  · unfold createOp
    rw [if_neg (fun hh => by cases hh.1)]
  · exact encryptName_ne key iv name

theorem C8_reserved_names_witness :
    createOp .plaintext [] reservedName = .error .NameReserved ∧
    mkdirOp .plaintext [] reservedName = .error .NameReserved ∧
    renameOp .plaintext [] "b" reservedName = .error .NameReserved ∧
    unlinkOp .plaintext [] reservedName = .error .NameReserved ∧
    (∀ names2, createOp .plaintext [] "a" = .ok names2 → reservedName ∉ names2) ∧
    (∀ names2, mkdirOp .plaintext [] "a" = .ok names2 → reservedName ∉ names2) ∧
    (∀ names2, renameOp .plaintext [] "b" "c" = .ok names2 → reservedName ∉ names2) ∧
    (∀ names2, unlinkOp .plaintext [] "a" = .ok names2 → reservedName ∉ names2) ∧
    createOp .encrypted [] "a" = .ok ["a"] ∧
    createOp .encrypted [] reservedName = .ok [reservedName] ∧
    backingName .encrypted key0 0 "a" ≠ "a" :=
  C8_reserved_names [] "a" "b" "c" key0 0 (by decide)

/-! ## Claims C9 and C10: `initDir` (src/init_dir.go) -/

/-- The init-failure exit code `ERREXIT_INIT`.  Its numeric value is
defined outside the sources at hand; modelled from the spec as a
fixed code distinct from the success code 0. -/
def ERREXIT_INIT : Nat := 6

/-- Inputs and environment of `initDir`: the mode flags and the
outcomes of the three fallible environment interactions
(`checkDirEmpty`, `configfile.CreateConfFile`,
`nametransform.WriteDirIV`). -/
structure InitArgs where
  reverse : Bool
  plaintextnames : Bool
  cipherdirEmpty : Bool
  createConfOk : Bool
  writeDirIVOk : Bool
  deriving DecidableEq

/-- Observable trace of one `initDir` run: the exit code, whether a
password was read, whether the config file was created, and whether
`gocryptfs.diriv` was written. -/
structure InitTrace where
  exitCode : Nat
  passwordRead : Bool
  confCreated : Bool
  dirivWritten : Bool
  deriving DecidableEq

/-- `initDir` (src/init_dir.go): in forward mode an emptiness check of
the cipherdir precedes everything; then the password is read and the
config file created; `WriteDirIV` runs only when neither
plaintext-names nor reverse mode is active; every failure exits with
`ERREXIT_INIT`, success exits 0. -/
def initDir (a : InitArgs) : InitTrace :=
  if a.reverse = false ∧ a.cipherdirEmpty = false then
    ⟨ERREXIT_INIT, false, false, false⟩
  else if a.createConfOk = false then
    ⟨ERREXIT_INIT, true, false, false⟩
  else if a.plaintextnames = false ∧ a.reverse = false then
    if a.writeDirIVOk = false then ⟨ERREXIT_INIT, true, true, false⟩
    else ⟨0, true, true, true⟩
  else ⟨0, true, true, false⟩

/-- C9 (amended): every successful run of `initDir` (exit code 0) has
created the config file, and has written `gocryptfs.diriv` exactly
when neither plaintext-names mode nor reverse mode is active — the
diriv write is disabled in both of those modes, not only in
plaintext-names mode. -/
theorem C9_init (a : InitArgs) (h : (initDir a).exitCode = 0) :
    (initDir a).confCreated = true ∧
    ((initDir a).dirivWritten = true ↔
      (a.plaintextnames = false ∧ a.reverse = false)) := by
  cases hr : a.reverse <;> cases hp : a.plaintextnames <;> cases he : a.cipherdirEmpty <;>
    cases hc : a.createConfOk <;> cases hw : a.writeDirIVOk <;>
      simp [initDir, hr, hp, he, hc, hw, ERREXIT_INIT] at h ⊢

theorem C9_init_witness :
    (initDir ⟨false, false, true, true, true⟩).confCreated = true ∧
    ((initDir ⟨false, false, true, true, true⟩).dirivWritten = true ↔
      ((⟨false, false, true, true, true⟩ : InitArgs).plaintextnames = false ∧
        (⟨false, false, true, true, true⟩ : InitArgs).reverse = false)) :=
  C9_init ⟨false, false, true, true, true⟩ (by decide)

/-- C9, counterexample: a successful reverse-mode init (exit code 0)
creates the config file but does not write `gocryptfs.diriv`, even
though plaintext-names mode is off — the diriv write is also disabled
in reverse mode (`if !args.plaintextnames && !args.reverse` in
src/init_dir.go). -/
theorem C9_counterexample :
    (initDir ⟨true, false, true, true, true⟩).exitCode = 0 ∧
    (initDir ⟨true, false, true, true, true⟩).confCreated = true ∧
    (⟨true, false, true, true, true⟩ : InitArgs).plaintextnames = false ∧
    (initDir ⟨true, false, true, true, true⟩).dirivWritten = false := by decide

/-- C10: in forward mode with a nonempty cipherdir, `initDir` exits
with the distinct failure code `ERREXIT_INIT ≠ 0` before reading a
password or writing anything (config file and diriv untouched); in
reverse mode the emptiness check is skipped entirely — the outcome
does not depend on whether the cipherdir is empty. -/
theorem C10_init_empty_check (a : InitArgs) (hrev : a.reverse = false)
    (hne : a.cipherdirEmpty = false) :
    initDir a = ⟨ERREXIT_INIT, false, false, false⟩ ∧ ERREXIT_INIT ≠ 0 ∧
    initDir {a with reverse := true}
      = initDir {a with reverse := true, cipherdirEmpty := true} := by
  refine ⟨?_, by decide, ?_⟩
  · unfold initDir
    rw [if_pos ⟨hrev, hne⟩]
  · cases hp : a.plaintextnames <;> cases hc : a.createConfOk <;>
      cases hw : a.writeDirIVOk <;> simp [initDir, hp, hc, hw]

theorem C10_init_empty_check_witness :
    initDir ⟨false, false, false, true, true⟩ = ⟨ERREXIT_INIT, false, false, false⟩ ∧
    ERREXIT_INIT ≠ 0 ∧
    initDir {(⟨false, false, false, true, true⟩ : InitArgs) with reverse := true}
      = initDir {(⟨false, false, false, true, true⟩ : InitArgs) with
          reverse := true, cipherdirEmpty := true} :=
  C10_init_empty_check ⟨false, false, false, true, true⟩ (by decide) (by decide)

end Gocryptfs
